import Mathlib

/-!
# Verification of the lorcanadb-data maintenance scripts

Shallow embedding of `scripts/validate.js` (the validation run controller,
collection loader, schema validator, cross-reference checks, canonical-form
engine and formatting auditor) and of `scripts/update_locales.js` (the locale
merge tool), together with proofs settling the frozen specification claims.

External collaborators (the YAML parse/serialize engine `js-yaml`, the `lodash`
utility functions, the JSON-schema engine `ajv`, and the file system) are
modelled at their documented interfaces: parsed YAML documents become explicit
`Record` values, file-system and schema-engine outcomes become explicit
environment parameters, and the relevant `lodash` combinators are given
faithful executable definitions.
-/

namespace LorcanaDB

/-- A parsed YAML scalar or list-of-string value, covering the value shapes the
data files use (string, integer, boolean, string list). -/
inductive Field where
  | str (s : String)
  | int (n : Int)
  | bool (b : Bool)
  | list (xs : List String)
deriving DecidableEq, Repr

/-- A parsed YAML mapping / JS object: an ordered association list from field
name to value (JS objects preserve string-key insertion order). -/
abbrev Record := List (String × Field)

/-- JS property read `r[k]`: the first binding of the key, `undefined` (`none`)
when absent. -/
def rget : Record → String → Option Field
  | [], _ => none
  | (k, v) :: rest, key => if k = key then some v else rget rest key

/-- JS truthiness of a property read: `undefined`, `""`, `0` and `false` are
falsy; every array and non-empty scalar is truthy. -/
def truthy : Option Field → Bool
  | none => false
  | some (.str s) => !(s == "")
  | some (.int n) => !(n == 0)
  | some (.bool b) => b
  | some (.list _) => true

/-- JS string coercion of a field value, as used when a field is interpolated
into a template string or used as a property key (`` `${p.code}` ``): arrays
join with commas, booleans print as `true`/`false`. -/
def jsToString : Field → String
  | .str s => s
  | .int n => toString n
  | .bool b => if b then "true" else "false"
  | .list xs => String.intercalate "," xs

/-- `lodash` `_.extend({}, a, b)`: a fresh object receiving `a`'s properties
then `b`'s.  Keys of `a` keep their positions (value overridden by `b` where
`b` also binds the key, since later sources win); keys only in `b` are appended
in `b`'s order. -/
def extendRec (a b : Record) : Record :=
  a.map (fun kv => match rget b kv.1 with | some w => (kv.1, w) | none => kv)
    ++ b.filter (fun kv => (rget a kv.1).isNone)

/-- `path.split("/")[0]` of a relative file path: the first path segment. -/
def pathFirstSegment (p : String) : String :=
  String.mk (p.data.takeWhile (fun c => c ≠ '/'))

/-- The `pathInfo` closure the validator declares for the `card` collection:
`(path) => ({ type: path.split("/")[0] })`. -/
def cardPathInfo (file : String) : Record :=
  [("type", .str (pathFirstSegment file))]

/-- The per-item merge step of `loadThingsData`: when the collection declares
`pathInfo` (only `card` does), `item = _.extend({}, item, info.pathInfo(file))`;
otherwise the item is kept as parsed. -/
def mergeItem (hasPathInfo : Bool) (file : String) (item : Record) : Record :=
  if hasPathInfo then extendRec item (cardPathInfo file) else item

/-- The aggregation loop of `loadThingsData` over already-parsed files: each
file contributes its (wrapped) record list, each item merged with the
path-derived info, in file-discovery order. -/
def loadThingsData (hasPathInfo : Bool) (files : List (String × List Record)) :
    List Record :=
  (files.map (fun f => f.2.map (mergeItem hasPathInfo f.1))).flatten

theorem rget_append (l₁ l₂ : Record) (k : String) :
    rget (l₁ ++ l₂) k = match rget l₁ k with | some v => some v | none => rget l₂ k := by
  induction l₁ with
  | nil => simp [rget]
  | cons kv rest ih =>
      obtain ⟨k₁, v₁⟩ := kv
      by_cases h : k₁ = k <;> simp [rget, h, ih]

theorem rget_extend_left (a b : Record) (k : String) :
    rget (a.map (fun kv => match rget b kv.1 with | some w => (kv.1, w) | none => kv)) k
      = match rget a k with
        | some v => some (match rget b k with | some w => w | none => v)
        | none => none := by
  induction a with
  | nil => simp [rget]
  | cons kv rest ih =>
      obtain ⟨k₁, v₁⟩ := kv
      by_cases h : k₁ = k
      · subst h
        cases hb : rget b k₁ <;> simp [rget, hb]
      · cases hb : rget b k₁ <;> simp [rget, h, hb, ih]

theorem rget_filter_none (a b : Record) (k : String) (h : rget a k = none) :
    rget (b.filter (fun kv => (rget a kv.1).isNone)) k = rget b k := by
  induction b with
  | nil => simp [rget]
  | cons kv rest ih =>
      obtain ⟨k₁, v₁⟩ := kv
      by_cases hk : k₁ = k
      · subst hk
        simp [rget, h]
      · cases ha : rget a k₁ <;> simp [rget, hk, ha, ih]

/-- Field resolution of `_.extend({}, a, b)`: the later source `b` wins on key
collision, `a`'s value otherwise. -/
theorem rget_extendRec (a b : Record) (k : String) :
    rget (extendRec a b) k
      = match rget b k with | some w => some w | none => rget a k := by
  unfold extendRec
  rw [rget_append, rget_extend_left]
  cases ha : rget a k with
  | some v => cases hb : rget b k <;> simp [hb]
  | none =>
      rw [rget_filter_none a b k ha]
      cases hb : rget b k <;> simp [hb]

theorem keys_extendRec (a b : Record) :
    (extendRec a b).map Prod.fst
      = a.map Prod.fst ++ (b.filter (fun kv => (rget a kv.1).isNone)).map Prod.fst := by
  unfold extendRec
  rw [List.map_append]
  congr 1
  induction a with
  | nil => rfl
  | cons kv rest ih =>
      obtain ⟨k₁, v₁⟩ := kv
      cases hb : rget b k₁ <;> simp [hb, ih]

theorem rget_cardPathInfo (file : String) (k : String) :
    rget (cardPathInfo file) k
      = if k = "type" then some (.str (pathFirstSegment file)) else none := by
  by_cases h : k = "type" <;> simp [cardPathInfo, rget, h]
  · exact fun hc => absurd hc.symm h

/-- **C1** counterexample: a card file at path `character/ariel.yml` whose
record explicitly declares `type: action` is loaded by `loadThingsData` with
the path-derived `type: character` — the explicit value does NOT win: in
`_.extend({}, item, info.pathInfo(file))` the later (path-derived) source
overrides the explicit parsed field. -/
theorem c1_counterexample :
    rget (mergeItem true "character/ariel.yml"
        [("code", .str "TFC-001"), ("type", .str "action")]) "type"
      = some (.str "character")
    ∧ rget (mergeItem true "character/ariel.yml"
        [("code", .str "TFC-001"), ("type", .str "action")]) "type"
      ≠ some (.str "action") := by decide

/-- **C1** (amended): every card record loaded by the collection loader is the
union of the explicitly parsed fields and the path-derived `type` field, but on
a key collision the PATH-DERIVED value wins over the explicit one (the merge
`_.extend({}, item, pathInfo)` lets the later source override); non-colliding
explicit fields are preserved, and the key set is the explicit keys plus
`type` when the record did not already declare it. -/
theorem c1_amended (item : Record) (file : String) :
    (∀ k, rget (mergeItem true file item) k
        = if k = "type" then some (.str (pathFirstSegment file)) else rget item k)
    ∧ (mergeItem true file item).map Prod.fst
        = item.map Prod.fst ++ (if (rget item "type").isNone then ["type"] else []) := by
  constructor
  · intro k
    rw [show mergeItem true file item = extendRec item (cardPathInfo file) from rfl,
      rget_extendRec, rget_cardPathInfo]
    by_cases h : k = "type" <;> simp [h]
  · rw [show mergeItem true file item = extendRec item (cardPathInfo file) from rfl,
      keys_extendRec]
    cases h : (rget item "type").isNone <;> simp [cardPathInfo, h]

/-! ## The keyword placeholder check (`customCheckKeyword`)

The check matches `data.rules` against the global regex `/\x7b(.+?)\x7d/ig`:
a match starts at an opening brace, captures at least one character (`.`
does not cross a newline), and ends at the first closing brace after it; on a
failed attempt the engine resumes one character further.  `String.match` with
a global regex returns the list of full match STRINGS, so the destructuring
`for (const [__, expr] of data.rules.match(re))` binds `expr` to character 1
of each match string — the first character of the placeholder content — not to
the captured group. -/

/-- One regex attempt after an opening brace: the characters up to the first
closing brace and the remainder after that brace. -/
def takeToClose : List Char → Option (List Char × List Char)
  | [] => none
  | c :: rest =>
      if c = '}' then some ([], rest)
      else match takeToClose rest with
        | some (content, r) => some (c :: content, r)
        | none => none

/-- All placeholder-match contents of the rules text, fuelled by the text
length (each step consumes at least one character, so the fuel never runs
out when initialized with the full length). -/
def kwScanAux : Nat → List Char → List (List Char)
  | 0, _ => []
  | _ + 1, [] => []
  | fuel + 1, c :: rest =>
      if c = '{' then
        match takeToClose rest with
        | some (content, r) =>
            if content ≠ [] ∧ '\n' ∉ content then content :: kwScanAux fuel r
            else kwScanAux fuel rest
        | none => kwScanAux fuel rest
      else kwScanAux fuel rest

/-- The contents of all matches of `/\x7b(.+?)\x7d/ig` over the rules text. -/
def kwScan (l : List Char) : List (List Char) := kwScanAux l.length l

/-- `c(message)`: wrap a message in green terminal colour codes. -/
def colored (message : String) : String := "\x1b[32m" ++ message ++ "\x1b[0m"

/-- `customCheckKeyword(data)`: for every placeholder match in `data.rules`,
compare the SECOND CHARACTER of the match string (the destructured `expr`)
against `data.args` and report a violation when absent. -/
def customCheckKeyword (rules : String) (args : List String) (code : String) :
    List String :=
  (kwScan rules.data).filterMap (fun content =>
    let expr := String.mk (content.take 1)
    if args.contains expr then none
    else some ("Expression \x7b" ++ colored expr
      ++ "\x7d is not defined as arg in keyword " ++ colored code))

/-- **C5** (code bug): the check only ever compares the FIRST character of a
placeholder expression against `args`.  The keyword with
`rules = "Draw \x7bnum\x7d cards"` and `args = ["num"]` — every placeholder
expression a member of `args` — is nevertheless reported, with a violation
naming `\x7bn\x7d` instead of `\x7bnum\x7d`; conversely a keyword with
`rules = "\x7bnum\x7d"` and `args = ["n"]` passes although `num` is not in
`args`.  The spec's own single-character example behaves as claimed. -/
theorem c5_code_bug :
    customCheckKeyword "Draw \x7bnum\x7d cards" ["num"] "kw"
      = ["Expression \x7b" ++ colored "n"
          ++ "\x7d is not defined as arg in keyword " ++ colored "kw"]
    ∧ customCheckKeyword "\x7bnum\x7d" ["n"] "kw" = []
    ∧ customCheckKeyword "Draw \x7bn\x7d cards" ["n"] "kw" = []
    ∧ customCheckKeyword "Draw \x7bn\x7d cards" [] "kw"
      = ["Expression \x7b" ++ colored "n"
          ++ "\x7d is not defined as arg in keyword " ++ colored "kw"] := by
  decide

/-! ## Collections (`loadCollections`)

`this.collections` is a JS object mapping a collection kind to an inner object
mapping `code` to record.  JS objects preserve insertion order of string keys;
assigning to an existing key replaces its value in place. -/

/-- The inner code→record map of one collection. -/
abbrev CodeMap := List (String × Record)

/-- The `this.collections` object: kind → code map. -/
abbrev Collections := List (String × CodeMap)

/-- JS property read `m[k]` on an object used as a map. -/
def jsGet {α : Type} : List (String × α) → String → Option α
  | [], _ => none
  | (k₁, v₁) :: rest, k => if k₁ = k then some v₁ else jsGet rest k

/-- JS property write `m[k] = v`: replace the value in place when the key
exists, append the binding otherwise. -/
def jsSet {α : Type} : List (String × α) → String → α → List (String × α)
  | [], k, v => [(k, v)]
  | (k₁, v₁) :: rest, k, v =>
      if k₁ = k then (k, v) :: rest else (k₁, v₁) :: jsSet rest k v

/-- The property key `item.code` is coerced to under `m[item.code] = item`
(`undefined` when the record has no code). -/
def codeKey (item : Record) : String :=
  match rget item "code" with
  | some f => jsToString f
  | none => "undefined"

/-- The assignment loop of `loadCollections`:
`for (const item of collection) this.collections[thing][item.code] = item`. -/
def insertAll (m : CodeMap) (items : List Record) : CodeMap :=
  items.foldl (fun acc item => jsSet acc (codeKey item) item) m

/-- `loadCollections(thing, collection)`: create the kind's map when absent,
then assign every record under its code. -/
def loadCollections (colls : Collections) (thing : String) (items : List Record) :
    Collections :=
  let m := match jsGet colls thing with
    | some m => m
    | none => []
  jsSet colls thing (insertAll m items)

theorem jsGet_append {α : Type} (l₁ l₂ : List (String × α)) (k : String) :
    jsGet (l₁ ++ l₂) k
      = match jsGet l₁ k with | some v => some v | none => jsGet l₂ k := by
  induction l₁ with
  | nil => simp [jsGet]
  | cons kv rest ih =>
      obtain ⟨k₁, v₁⟩ := kv
      by_cases h : k₁ = k <;> simp [jsGet, h, ih]

theorem jsSet_fresh {α : Type} (m : List (String × α)) (k : String) (v : α)
    (h : jsGet m k = none) : jsSet m k v = m ++ [(k, v)] := by
  induction m with
  | nil => rfl
  | cons kv rest ih =>
      obtain ⟨k₁, v₁⟩ := kv
      by_cases hk : k₁ = k
      · subst hk; simp [jsGet] at h
      · simp [jsGet, hk] at h
        simp [jsSet, hk, ih h]

theorem insertAll_fresh (items : List Record) : ∀ (m : CodeMap),
    (∀ i ∈ items, jsGet m (codeKey i) = none) →
    (items.map codeKey).Nodup →
    insertAll m items = m ++ items.map (fun i => (codeKey i, i)) := by
  induction items with
  | nil => intro m _ _; simp [insertAll]
  | cons i rest ih =>
      intro m hfresh hnodup
      have hnd : codeKey i ∉ rest.map codeKey ∧ (rest.map codeKey).Nodup := by
        rw [List.map_cons, List.nodup_cons] at hnodup
        exact hnodup
      have hstep : jsSet m (codeKey i) i = m ++ [(codeKey i, i)] :=
        jsSet_fresh m (codeKey i) i (hfresh i (List.mem_cons_self i rest))
      have hrest : ∀ j ∈ rest, jsGet (m ++ [(codeKey i, i)]) (codeKey j) = none := by
        intro j hj
        rw [jsGet_append, hfresh j (List.mem_cons_of_mem i hj)]
        have hne : ¬ codeKey i = codeKey j := by
          intro he
          exact hnd.1 (by rw [he]; exact List.mem_map_of_mem codeKey hj)
        simp [jsGet, hne]
      have hind := ih (m ++ [(codeKey i, i)]) hrest hnd.2
      show insertAll (jsSet m (codeKey i) i) rest = _
      rw [hstep, hind]
      simp

theorem jsGet_map_self (items : List Record) (i : Record)
    (hi : i ∈ items) (hnodup : (items.map codeKey).Nodup) :
    jsGet (items.map (fun j => (codeKey j, j))) (codeKey i) = some i := by
  induction items with
  | nil => cases hi
  | cons j rest ih =>
      have hnd : codeKey j ∉ rest.map codeKey ∧ (rest.map codeKey).Nodup := by
        rw [List.map_cons, List.nodup_cons] at hnodup
        exact hnodup
      cases hi with
      | head => simp [jsGet]
      | tail _ hi =>
          have hne : ¬ codeKey j = codeKey i := by
            intro he
            exact hnd.1 (by rw [he]; exact List.mem_map_of_mem codeKey hi)
          simp [jsGet, hne, ih hi hnd.2]

/-- **C8** counterexample: two records of one collection sharing code `"a"` —
building the code→record map silently keeps only the later record; the earlier
one is lost, and `loadCollections` has no error channel at all, so nothing is
detected. -/
theorem c8_counterexample :
    loadCollections [] "ink"
        [[("code", .str "a"), ("name", .str "first")],
         [("code", .str "a"), ("name", .str "second")]]
      = [("ink", [("a", [("code", .str "a"), ("name", .str "second")])])]
    ∧ ([("code", Field.str "a"), ("name", Field.str "first")]
        ≠ [("code", Field.str "a"), ("name", Field.str "second")]) := by
  decide

/-- **C8** (amended): code uniqueness is NOT checked — when two loaded records
of one collection share a code, the later silently replaces the earlier
(`this.collections[thing][item.code] = item`).  Only when the loaded records'
codes are pairwise distinct does building the mapping lose no record: every
record is then present in insertion order and retrievable under its own code. -/
theorem c8_amended (items : List Record)
    (hnodup : (items.map codeKey).Nodup) :
    jsGet (loadCollections [] "ink" items) "ink"
        = some (items.map (fun i => (codeKey i, i)))
    ∧ ∀ i ∈ items,
        jsGet (items.map (fun j => (codeKey j, j))) (codeKey i) = some i := by
  constructor
  · have h := insertAll_fresh items [] (fun i _ => rfl) hnodup
    show jsGet (jsSet [] "ink" (insertAll [] items)) "ink" = _
    rw [h]
    simp [jsSet, jsGet]
  · intro i hi
    exact jsGet_map_self items i hi hnodup

/-- **C8** witness: the amended theorem applied to two records with distinct
codes — both survive in the mapping. -/
theorem c8_amended_witness :
    jsGet (loadCollections [] "ink"
        [[("code", .str "a")], [("code", .str "b")]]) "ink"
      = some [("a", [("code", .str "a")]), ("b", [("code", .str "b")])] :=
  (c8_amended [[("code", .str "a")], [("code", .str "b")]] (by decide)).1

/-! ## Error accounting -/

/-- The `this.errors` counters of a validator instance. -/
structure Errors where
  formatting : Nat
  validation : Nat
  nonFixedFormatting : Nat
deriving DecidableEq, Repr

def Errors.zero : Errors := ⟨0, 0, 0⟩

/-- The error merge of `validateLocales`: each counter of the locale validator
is added to the run total. -/
def addErrors (a b : Errors) : Errors :=
  ⟨a.formatting + b.formatting, a.validation + b.validation,
    a.nonFixedFormatting + b.nonFixedFormatting⟩

/-- `showResults()`: the process exit code is 0 exactly when
`errors.formatting + errors.validation == 0`, and 1 otherwise. -/
def showResults (e : Errors) : Nat :=
  if e.formatting + e.validation = 0 then 0 else 1

/-- The externally determined outcomes of reading one YAML file in
`getDataFromFile`: the parsed document (wrapped in a list when the file holds
a single record), whether the parse succeeded, whether the raw text equals the
canonical re-serialization, whether the canonical text is non-empty, and
whether the repair write succeeds. -/
structure YamlFile where
  path : String
  items : List Record
  parseOk : Bool
  formatClean : Bool
  canonNonEmpty : Bool
  writeOk : Bool

/-- The error bookkeeping of `getDataFromFile(filepath)`: a parse failure
counts one validation error and contributes no records; formatting drift
counts one formatting error unconditionally, plus one non-fixed formatting
error unless repair is enabled, the canonical text is non-empty and the
rewrite succeeds. -/
def getDataFromFile (fix : Bool) (e : Errors) (f : YamlFile) :
    Errors × List Record :=
  if f.parseOk then
    if f.formatClean then (e, f.items)
    else
      let e1 := { e with formatting := e.formatting + 1 }
      if fix && f.canonNonEmpty then
        if f.writeOk then (e1, f.items)
        else ({ e1 with nonFixedFormatting := e1.nonFixedFormatting + 1 }, f.items)
      else ({ e1 with nonFixedFormatting := e1.nonFixedFormatting + 1 }, f.items)
  else ({ e with validation := e.validation + 1 }, [])

/-- The error accounting of `validateSchema(thing, thingData, validator)`:
one single increment of the `validation` counter when the record fails the
schema, or passes the schema but fails the custom checks; no increment when it
passes both.  The returned flag is the SCHEMA validity (custom-check failures
do not affect it). -/
def validateSchemaStep (e : Errors) (valid : Bool) (customErrors : List String) :
    Errors × Bool :=
  if valid then
    if customErrors.length = 0 then (e, true)
    else ({ e with validation := e.validation + 1 }, true)
  else ({ e with validation := e.validation + 1 }, false)

/-- **C10**: a record that fails validation — whether by schema or by the
business-rule checks, and regardless of how many individual violations it
accumulates — increments the `validation` counter by exactly one, and a
passing record increments it by zero; the formatting counters are never
touched by `validateSchema`. -/
theorem c10_validation_increment (e : Errors) (valid : Bool)
    (customErrors : List String) :
    (validateSchemaStep e valid customErrors).1.validation
        = e.validation + (if valid = true ∧ customErrors = [] then 0 else 1)
    ∧ (validateSchemaStep e valid customErrors).1.formatting = e.formatting
    ∧ (validateSchemaStep e valid customErrors).1.nonFixedFormatting
        = e.nonFixedFormatting := by
  cases valid <;> cases customErrors <;> simp [validateSchemaStep]

/-! ## Cross-reference and business-rule checks

The checks read `this.collections[thing][key]`.  When `thing` was never
registered (its collection failed validation), `this.collections[thing]` is
`undefined`, and reading a property of `undefined` throws a `TypeError` that
nothing in the script catches — modelled as `Except.error`. -/

/-- JS string coercion of a possibly-absent field (`String(undefined)` is
`"undefined"`). -/
def fieldKey (o : Option Field) : String :=
  match o with
  | some f => jsToString f
  | none => "undefined"

/-- `!this.collections[thing][key]` as a presence test: `error` when the
collection object itself is absent (`TypeError` on property read of
`undefined`); otherwise whether a record is bound under the key (records are
objects, hence truthy). -/
def collHas (colls : Collections) (thing : String) (key : String) :
    Except String Bool :=
  match jsGet colls thing with
  | none => .error ("TypeError: cannot read properties of undefined: " ++ thing)
  | some m => .ok (jsGet m key).isSome

/-- `_.upperFirst`: capitalize the first character. -/
def upperFirst (s : String) : String :=
  match s.data with
  | [] => ""
  | c :: rest => String.mk (c.toUpper :: rest)

/-- The shared shape of the scalar cross-reference checks
(`customCheckSet` for `cycle`; the `type` and `ink` checks of
`customCheckCard`): guard on field truthiness, then look the coerced field up
in the named collection. -/
def checkRef (colls : Collections) (thing : String) (data : Record)
    (fieldName : String) (label : String) : Except String (List String) :=
  if truthy (rget data fieldName) then do
    let present ← collHas colls thing (fieldKey (rget data fieldName))
    if present then pure []
    else pure [label ++ " code '" ++ fieldKey (rget data fieldName)
      ++ "' does not exists in set '" ++ colored (fieldKey (rget data "code")) ++ "'"]
  else pure []

/-- `for (const x of (data.field || []))`: an absent or falsy field iterates
nothing, a list iterates its members, a string iterates its characters, and
any other truthy value throws. -/
def iterableStrings (o : Option Field) : Except String (List String) :=
  if truthy o then
    match o with
    | some (.list xs) => .ok xs
    | some (.str s) => .ok (s.data.map (fun c => String.mk [c]))
    | _ => .error "TypeError: value is not iterable"
  else .ok []

/-- The `keywords`/`traits` loops of `customCheckCard`: each member looked up
in the named collection, one violation per unresolved member. -/
def checkRefList (colls : Collections) (thing : String) (data : Record)
    (fieldName : String) (label : String) : Except String (List String) := do
  let xs ← iterableStrings (rget data fieldName)
  xs.foldlM (fun acc x => do
    let present ← collHas colls thing x
    pure (if present then acc
      else acc ++ [label ++ " code '" ++ x ++ "' does not exists in set '"
        ++ colored (fieldKey (rget data "code")) ++ "'"])) []

/-- `customCheckSet(data)`: the optional `cycle` reference. -/
def customCheckSet (colls : Collections) (data : Record) :
    Except String (List String) :=
  checkRef colls "cycle" data "cycle" "Cycle"

/-- `customCheckCardCharacter(data)`: presence (not value) of the four
required character fields, via `_.has`. -/
def customCheckCardCharacter (data : Record) : List String :=
  ["version", "strength", "willpower", "lore"].filterMap (fun required =>
    if (rget data required).isSome then none
    else some ("Character card code " ++ colored (fieldKey (rget data "code"))
      ++ " must have attribute " ++ required))

/-- `customCheckCard(data)`: the `type`/`ink` references, the
`keywords`/`traits` loops, then the per-type dispatch
`` this[`customCheckCard${_.upperFirst(data.type)}`] ``.  The only matching
method suffixes are `"Character"` (the character rules) and `""` (an absent or
empty `type` makes the method name `customCheckCard` itself, so the dispatch
recurses into itself forever — a stack overflow, modelled as an error). -/
def customCheckCard (colls : Collections) (data : Record) :
    Except String (List String) := do
  let v1 ← checkRef colls "type" data "type" "Type"
  let v2 ← checkRef colls "ink" data "ink" "Ink"
  let v3 ← checkRefList colls "keyword" data "keywords" "Keyword"
  let v4 ← checkRefList colls "trait" data "traits" "Trait"
  let t := upperFirst (match rget data "type" with
    | some f => jsToString f
    | none => "")
  if t = "Character" then
    pure (v1 ++ v2 ++ v3 ++ v4 ++ customCheckCardCharacter data)
  else if t = "" then
    .error "RangeError: maximum call stack size exceeded"
  else
    pure (v1 ++ v2 ++ v3 ++ v4)

/-- The `args` list of a keyword record (`data.args || []`; the schema makes
`args` an array when present). -/
def argsOf (o : Option Field) : List String :=
  match o with
  | some (.list xs) => xs
  | _ => []

/-- The base validator's `customCheck(thing, thingData)` dispatcher:
`` this[`customCheck${_.upperFirst(thing)}`] `` — of the nine collection kinds
only `keyword`, `set` and `card` have a method; every other kind checks
nothing. -/
def customCheck (colls : Collections) (thing : String) (data : Record) :
    Except String (List String) :=
  if thing = "keyword" then
    pure (customCheckKeyword (fieldKey (rget data "rules"))
      (argsOf (rget data "args")) (fieldKey (rget data "code")))
  else if thing = "set" then customCheckSet colls data
  else if thing = "card" then customCheckCard colls data
  else pure []

/-- The `I18NValidator` override of `customCheck`: for every kind, the only
rule is that the overlay record's `code` must exist in the corresponding base
collection (keyword-placeholder and character rules are suppressed). -/
def customCheckI18N (locale : String) (colls : Collections) (thing : String)
    (data : Record) : Except String (List String) :=
  if truthy (rget data "code") then do
    let present ← collHas colls thing (fieldKey (rget data "code"))
    if present then pure []
    else pure [colored thing ++ " code '" ++ fieldKey (rget data "code")
      ++ "' does not exists in '" ++ locale ++ "' " ++ thing ++ " translations"]
  else pure []

/-! ## The validation run controller

`ValidatorBase.validate` iterates a fixed, ordered kind list; per kind it
loads the data files (formatting-auditing each file as it is read), loads and
compiles the kind's schema, validates every record, and registers the
collection only when every record passed the schema.  The file tree, the
schema engine outcomes and the compiled validator are environment inputs. -/

/-- The fixed `things` table of `validate()` (insertion order of
`Object.entries`), with the flag for the `card` path-derived metadata. -/
def thingsList : List (String × Bool) :=
  [("ink", false), ("trait", false), ("keyword", false), ("cycle", false),
   ("rarity", false), ("set", false), ("type", false), ("card", true),
   ("printing", false)]

/-- The environment of one collection kind: its data files (in glob order),
its schema file, the truthiness of the parsed schema, whether `ajv.compile`
succeeds on it, and the compiled validator's verdict per record. -/
structure CollectionFiles where
  dataFiles : List YamlFile
  schemaFile : YamlFile
  schemaTruthy : Bool
  compileOk : Bool
  schemaValid : Record → Bool

/-- The file loop of `loadThingsData`, with the `getDataFromFile` effects:
parse/format each file, wrap single records, merge the path-derived info. -/
def loadThingsDataRun (fix : Bool) (hasPathInfo : Bool) (e : Errors)
    (files : List YamlFile) : Errors × List Record :=
  files.foldl (fun acc f =>
    let step := getDataFromFile fix acc.1 f
    (step.1, acc.2 ++ step.2.map (mergeItem hasPathInfo f.path))) (e, [])

/-- `validateSchema` with the dispatched custom check (only run when the
record passed the schema), threading a possible `TypeError` crash. -/
def validateSchemaRun
    (check : Collections → String → Record → Except String (List String))
    (colls : Collections) (thing : String) (data : Record) (valid : Bool)
    (e : Errors) : Except String (Errors × Bool) :=
  if valid then do
    let customErrors ← check colls thing data
    pure (validateSchemaStep e true customErrors)
  else pure (validateSchemaStep e false [])

/-- `validateCollection(thing, thingsData)`: read (and format-audit) the
schema file; `if (!schemaData) return false`; compile it (a compile failure
logs, counts one validation error and returns `false`); then fold
`validateSchema` over the records, the result being the conjunction of the
SCHEMA verdicts. -/
def validateCollection
    (check : Collections → String → Record → Except String (List String))
    (fix : Bool) (cf : CollectionFiles) (colls : Collections) (thing : String)
    (records : List Record) (e : Errors) : Except String (Errors × Bool) := do
  let schemaRead := getDataFromFile fix e cf.schemaFile
  let e1 := schemaRead.1
  if cf.schemaFile.parseOk ∧ ¬ cf.schemaTruthy then
    pure (e1, false)
  else if cf.compileOk then
    records.foldlM (fun acc r => do
      let step ← validateSchemaRun check colls thing r (cf.schemaValid r) acc.1
      pure (step.1, step.2 && acc.2)) (e1, true)
  else
    pure ({ e1 with validation := e1.validation + 1 }, false)

/-- The mutable state of a validator instance: its collections object and its
error counters. -/
structure RunState where
  colls : Collections
  errors : Errors
deriving DecidableEq, Repr

/-- One iteration of the `validate()` loop: `loadCollection` (load the data
files, validate the collection) and, when the collection validated, register
it via `loadCollections`. -/
def processThing
    (check : Collections → String → Record → Except String (List String))
    (fix : Bool) (env : String → CollectionFiles) (st : RunState)
    (tp : String × Bool) : Except String RunState := do
  let cf := env tp.1
  let load := loadThingsDataRun fix tp.2 st.errors cf.dataFiles
  let records := load.2
  let step ← validateCollection check fix cf st.colls tp.1 records load.1
  if step.2 then pure ⟨loadCollections st.colls tp.1 records, step.1⟩
  else pure ⟨st.colls, step.1⟩

/-- `ValidatorBase.validate()` for the base pass: fold the kind list from an
empty collections object and zeroed counters. -/
def runBase (fix : Bool) (env : String → CollectionFiles) :
    Except String RunState :=
  thingsList.foldlM (processThing customCheck fix env) ⟨[], Errors.zero⟩

/-- `I18NValidator#validate` for one locale: the same loop, with the overlay
custom check, starting from the SHARED base collections object (the
constructor stores the reference, not a copy) and fresh counters. -/
def runI18N (fix : Bool) (locale : String) (env : String → CollectionFiles)
    (baseColls : Collections) : Except String RunState :=
  thingsList.foldlM (processThing (customCheckI18N locale) fix env)
    ⟨baseColls, Errors.zero⟩

/-- `_.uniq`: keep the first occurrence of each element. -/
def jsUniqAux (seen : List String) : List String → List String
  | [] => []
  | x :: rest =>
      if x ∈ seen then jsUniqAux seen rest
      else x :: jsUniqAux (x :: seen) rest

def jsUniq (l : List String) : List String := jsUniqAux [] l

/-- The locale set of `validateLocales`: the union of every set record's
`languages`, de-duplicated, without the base locale `"en"`. -/
def localesOf (colls : Collections) : List String :=
  jsUniq ((((jsGet colls "set").getD []).map (fun kv =>
    match rget kv.2 "languages" with
    | some (.list xs) => xs
    | _ => [])).flatten) |>.filter (fun lang => lang ≠ "en")

/-- The outcome of a full run (`Validator#validate` then `showResults`). -/
structure FullReport where
  baseErrors : Errors
  localeErrors : List Errors
  errors : Errors
  localesValidated : List String
  skipNotice : Bool
deriving DecidableEq, Repr

/-- `Validator#validate()`: the base pass; then, only when the base pass
accumulated zero validation errors, one `I18NValidator` per discovered locale
— sharing the base collections object and adding its counters to the run
total; otherwise the skip notice. -/
def fullRun (fix : Bool) (env : String → CollectionFiles)
    (i18nEnv : String → String → CollectionFiles) :
    Except String FullReport := do
  let st ← runBase fix env
  if st.errors.validation = 0 then
    let locales := localesOf st.colls
    let folded ← locales.foldlM (fun acc loc => do
        let stL ← runI18N fix loc (i18nEnv loc) acc.1
        pure (stL.colls, acc.2 ++ [stL.errors])) (st.colls, ([] : List Errors))
    pure ⟨st.errors, folded.2, folded.2.foldl addErrors st.errors, locales, false⟩
  else
    pure ⟨st.errors, [], st.errors, [], true⟩

/-! ## Concrete run environments -/

/-- A clean, readable, correctly formatted schema file. -/
def cleanSchemaFile (p : String) : YamlFile := ⟨p, [], true, true, true, true⟩

/-- A collection kind with no data files and a healthy schema. -/
def emptyCollection : CollectionFiles :=
  ⟨[], cleanSchemaFile "schema.yml", true, true, fun _ => true⟩

def emptyEnv : String → CollectionFiles := fun _ => emptyCollection

def inkRecord : Record := [("code", .str "amber"), ("name", .str "Amber")]

/-- An environment whose single ink record fails its schema. -/
def badInkEnv : String → CollectionFiles := fun thing =>
  if thing = "ink" then
    ⟨[⟨"amber.yml", [inkRecord], true, true, true, true⟩],
      cleanSchemaFile "ink_schema.yml", true, true, fun _ => false⟩
  else emptyCollection

/-- The collections object after a clean base run over `emptyEnv`. -/
def emptyRunColls : Collections :=
  [("ink", []), ("trait", []), ("keyword", []), ("cycle", []), ("rarity", []),
   ("set", []), ("type", []), ("card", []), ("printing", [])]

example : runBase true emptyEnv = .ok ⟨emptyRunColls, Errors.zero⟩ := by rfl

example : runBase true badInkEnv
    = .ok ⟨[("trait", []), ("keyword", []), ("cycle", []), ("rarity", []),
            ("set", []), ("type", []), ("card", []), ("printing", [])],
           ⟨0, 1, 0⟩⟩ := by rfl

/-! ## C4: the base-error short circuit -/

theorem except_bind_ok {ε α β : Type} (a : α) (f : α → Except ε β) :
    (Except.ok a : Except ε α) >>= f = f a := rfl

theorem except_bind_error {ε α β : Type} (e : ε) (f : α → Except ε β) :
    (Except.error e : Except ε α) >>= f = Except.error e := rfl

theorem except_pure_eq {ε α : Type} (a : α) :
    (pure a : Except ε α) = Except.ok a := rfl

theorem except_map_eq_ok {ε α β : Type} {f : α → β} {x : Except ε α} {b : β}
    (h : f <$> x = .ok b) : ∃ a, x = .ok a ∧ b = f a := by
  cases x with
  | error e => simp at h
  | ok a =>
      simp at h
      exact ⟨a, rfl, h.symm⟩

theorem except_bind_eq_ok {ε α β : Type} {f : α → Except ε β} {x : Except ε α}
    {b : β} (h : x >>= f = .ok b) : ∃ a, x = .ok a ∧ f a = .ok b := by
  cases x with
  | error e => exact absurd h (by simp [except_bind_error])
  | ok a => exact ⟨a, rfl, by rw [← except_bind_ok a f]; exact h⟩

/-- **C4**: when the base pass ends with a nonzero `validation` counter, the
locale passes never run (no locale validator is constructed, the locale error
list is empty, the run total equals the base counters unchanged) and the skip
notice is emitted; and when the run does proceed past the base pass without
the notice, the base validation counter was zero. -/
theorem c4_short_circuit (fix : Bool) (env : String → CollectionFiles)
    (i18nEnv : String → String → CollectionFiles) (st : RunState)
    (hbase : runBase fix env = .ok st) :
    (st.errors.validation ≠ 0 →
      fullRun fix env i18nEnv = .ok ⟨st.errors, [], st.errors, [], true⟩)
    ∧ (∀ rep, fullRun fix env i18nEnv = .ok rep →
        (rep.skipNotice = false ↔ st.errors.validation = 0)) := by
  constructor
  · intro hv
    unfold fullRun
    rw [hbase, except_bind_ok]
    simp [hv, except_pure_eq]
  · intro rep hrep
    unfold fullRun at hrep
    rw [hbase, except_bind_ok] at hrep
    by_cases hv : st.errors.validation = 0
    · rw [if_pos hv] at hrep
      obtain ⟨folded, _, hrepEq⟩ := except_map_eq_ok hrep
      subst hrepEq
      simp [hv]
    · rw [if_neg hv, except_pure_eq] at hrep
      cases hrep
      simp [hv]

/-- **C4** witness: a concrete base run with one validation error — the full
run reports exactly the base counters, no locale pass, and the skip notice. -/
theorem c4_witness :
    fullRun true badInkEnv (fun _ _ => emptyCollection)
      = .ok ⟨⟨0, 1, 0⟩, [], ⟨0, 1, 0⟩, [], true⟩ :=
  (c4_short_circuit true badInkEnv (fun _ _ => emptyCollection)
      ⟨[("trait", []), ("keyword", []), ("cycle", []), ("rarity", []),
        ("set", []), ("type", []), ("card", []), ("printing", [])], ⟨0, 1, 0⟩⟩
      rfl).1 (by decide)

/-! ## C3: the exit status -/

theorem foldl_addErrors_counts (es : List Errors) : ∀ (b : Errors),
    (es.foldl addErrors b).formatting
        = b.formatting + (es.map Errors.formatting).sum
    ∧ (es.foldl addErrors b).validation
        = b.validation + (es.map Errors.validation).sum := by
  induction es with
  | nil => intro b; simp
  | cons e rest ih =>
      intro b
      have h := ih (addErrors b e)
      simp only [List.foldl_cons, List.map_cons, List.sum_cons]
      constructor
      · rw [h.1]; simp [addErrors]; omega
      · rw [h.2]; simp [addErrors]; omega

theorem sum_form_val (es : List Errors) :
    (es.map (fun e => e.formatting + e.validation)).sum
      = (es.map Errors.formatting).sum + (es.map Errors.validation).sum := by
  induction es with
  | nil => simp
  | cons e rest ih => simp [ih]; omega

/-- **C3**: for every run that reaches `showResults`, the process exit code is
0 iff the `formatting` plus `validation` counters, summed over the base pass
and all executed locale passes, equal zero; and a formatting error that the
auditor successfully repairs still increments the `formatting` counter (so it
still counts toward the total), never the `validation` counter. -/
theorem c3_exit_code (fix : Bool) (env : String → CollectionFiles)
    (i18nEnv : String → String → CollectionFiles) (rep : FullReport)
    (h : fullRun fix env i18nEnv = .ok rep) :
    (showResults rep.errors = 0 ↔
      rep.baseErrors.formatting + rep.baseErrors.validation
        + (rep.localeErrors.map (fun e => e.formatting + e.validation)).sum = 0)
    ∧ (∀ (e : Errors) (f : YamlFile), f.parseOk = true → f.formatClean = false →
        f.canonNonEmpty = true → f.writeOk = true →
        (getDataFromFile true e f).1.formatting = e.formatting + 1
        ∧ (getDataFromFile true e f).1.validation = e.validation) := by
  constructor
  · unfold fullRun at h
    obtain ⟨st, hbase, h⟩ := except_bind_eq_ok h
    by_cases hv : st.errors.validation = 0
    · rw [if_pos hv] at h
      obtain ⟨folded, _, hrepEq⟩ := except_map_eq_ok h
      subst hrepEq
      have hc := foldl_addErrors_counts folded.2 st.errors
      simp only [showResults, sum_form_val]
      rw [hc.1, hc.2]
      constructor
      · intro hz
        split at hz
        · omega
        · exact absurd hz (by simp)
      · intro hz
        rw [if_pos (by omega)]
    · rw [if_neg hv, except_pure_eq] at h
      cases h
      simp only [showResults]
      constructor
      · intro hz
        split at hz
        · omega
        · exact absurd hz (by simp)
      · intro hz
        rw [if_pos (by omega)]
  · intro e f h1 h2 h3 h4
    simp [getDataFromFile, h1, h2, h3, h4]

/-- **C3** witness: the clean empty run exits 0, and the repaired-error
accounting instantiated at a concrete file. -/
theorem c3_witness :
    (showResults (FullReport.mk Errors.zero [] Errors.zero [] false).errors = 0 ↔
      (FullReport.mk Errors.zero [] Errors.zero [] false).baseErrors.formatting
        + (FullReport.mk Errors.zero [] Errors.zero [] false).baseErrors.validation
        + ((FullReport.mk Errors.zero [] Errors.zero [] false).localeErrors.map
            (fun e => e.formatting + e.validation)).sum = 0)
    ∧ (∀ (e : Errors) (f : YamlFile), f.parseOk = true → f.formatClean = false →
        f.canonNonEmpty = true → f.writeOk = true →
        (getDataFromFile true e f).1.formatting = e.formatting + 1
        ∧ (getDataFromFile true e f).1.validation = e.validation) :=
  c3_exit_code true emptyEnv (fun _ _ => emptyCollection)
    (FullReport.mk Errors.zero [] Errors.zero [] false) rfl

/-! ## C6: schema compile failure -/

def cardRecord : Record :=
  [("code", .str "TFC-001"), ("name", .str "Ariel"),
   ("type", .str "character"), ("ink", .str "amber"),
   ("inkwell", .bool true), ("version", .str "Spectacular Singer"),
   ("strength", .int 2), ("willpower", .int 3), ("lore", .int 1)]

/-- An environment where the `type` schema fails to compile while a later
card references the `type` collection. -/
def typeFailEnv : String → CollectionFiles := fun thing =>
  if thing = "type" then
    ⟨[], cleanSchemaFile "type_schema.yml", true, false, fun _ => true⟩
  else if thing = "card" then
    ⟨[⟨"character/ariel.yml", [cardRecord], true, true, true, true⟩],
      cleanSchemaFile "card_schema.yml", true, true, fun _ => true⟩
  else if thing = "ink" then
    ⟨[⟨"amber.yml", [inkRecord], true, true, true, true⟩],
      cleanSchemaFile "ink_schema.yml", true, true, fun _ => true⟩
  else emptyCollection

/-- **C6** counterexample: when the `type` collection's schema fails to
compile, the collection is never registered, and validating a later card whose
`type` field is truthy reads `this.collections['type'][data.type]` — a
property read on `undefined` that throws an uncaught `TypeError`: the run IS
aborted, contrary to the claim that every later collection still runs to
completion. -/
theorem c6_counterexample :
    runBase true typeFailEnv
      = .error "TypeError: cannot read properties of undefined: type" := by
  rfl

/-- **C6** (amended): a schema compile failure is recorded as one validation
error on top of the load effects (the formatting audits of the collection's
data files and schema file have ALREADY run during loading — they are not
skipped); the collection's per-record schema/cross-reference checks are
skipped, the collection is not registered, and the controller loop continues
with the remaining collections — but validation of a later record whose
cross-reference check consults the missing collection throws a `TypeError`
that aborts the run. -/
theorem c6_amended
    (check : Collections → String → Record → Except String (List String))
    (fix : Bool) (env : String → CollectionFiles) (st : RunState)
    (thing : String) (hasPath : Bool)
    (hparse : (env thing).schemaFile.parseOk = true)
    (htruthy : (env thing).schemaTruthy = true)
    (hcompile : (env thing).compileOk = false) :
    ∃ e2 : Errors,
      processThing check fix env st (thing, hasPath) = .ok ⟨st.colls, e2⟩
      ∧ e2.validation
          = (getDataFromFile fix
              (loadThingsDataRun fix hasPath st.errors (env thing).dataFiles).1
              (env thing).schemaFile).1.validation + 1
      ∧ e2.formatting
          = (getDataFromFile fix
              (loadThingsDataRun fix hasPath st.errors (env thing).dataFiles).1
              (env thing).schemaFile).1.formatting
      ∧ ∀ ts : List (String × Bool),
          ((thing, hasPath) :: ts).foldlM (processThing check fix env) st
            = ts.foldlM (processThing check fix env) ⟨st.colls, e2⟩ := by
  have hvc : validateCollection check fix (env thing) st.colls thing
      (loadThingsDataRun fix hasPath st.errors (env thing).dataFiles).2
      (loadThingsDataRun fix hasPath st.errors (env thing).dataFiles).1
      = .ok ({ (getDataFromFile fix
            (loadThingsDataRun fix hasPath st.errors (env thing).dataFiles).1
            (env thing).schemaFile).1 with
          validation := (getDataFromFile fix
            (loadThingsDataRun fix hasPath st.errors (env thing).dataFiles).1
            (env thing).schemaFile).1.validation + 1 }, false) := by
    unfold validateCollection
    simp [hparse, htruthy, hcompile, except_pure_eq]
  have hpt : processThing check fix env st (thing, hasPath)
      = .ok ⟨st.colls, { (getDataFromFile fix
            (loadThingsDataRun fix hasPath st.errors (env thing).dataFiles).1
            (env thing).schemaFile).1 with
          validation := (getDataFromFile fix
            (loadThingsDataRun fix hasPath st.errors (env thing).dataFiles).1
            (env thing).schemaFile).1.validation + 1 }⟩ := by
    unfold processThing
    dsimp only
    rw [hvc, except_bind_ok]
    rfl
  refine ⟨_, hpt, rfl, rfl, ?_⟩
  intro ts
  rw [List.foldlM_cons, hpt, except_bind_ok]

/-- **C6** witness of the amended theorem: the compile-failing `type`
collection records one validation error, stays unregistered, and the loop
continues. -/
theorem c6_amended_witness :
    ∃ e2 : Errors,
      processThing customCheck true typeFailEnv ⟨[], Errors.zero⟩ ("type", false)
        = .ok ⟨[], e2⟩ ∧ e2.validation = 1 ∧ e2.formatting = 0 := by
  obtain ⟨e2, hpt, hval, hform, _⟩ :=
    c6_amended customCheck true typeFailEnv ⟨[], Errors.zero⟩ "type" false
      rfl rfl rfl
  exact ⟨e2, hpt, hval.trans rfl, hform.trans rfl⟩

/-! ## C7: the locale passes and the shared base collections

`I18NValidator`'s constructor stores the caller's collections object
(`this.collections = collections`) — a shared reference, not a copy — and its
inherited `validate()` loop calls `loadCollections`, which upserts every
schema-valid locale record into that shared object. -/

def baseCollsEx : Collections :=
  [("ink", [("amber", inkRecord)]), ("trait", []), ("keyword", []),
   ("cycle", []), ("rarity", []), ("set", []), ("type", []), ("card", []),
   ("printing", [])]

def frInkRecord : Record := [("code", .str "amber"), ("name", .str "Ambre")]

/-- A French overlay containing one translated ink record. -/
def frEnv : String → CollectionFiles := fun thing =>
  if thing = "ink" then
    ⟨[⟨"amber.yml", [frInkRecord], true, true, true, true⟩],
      cleanSchemaFile "translations/ink_schema.yml", true, true, fun _ => true⟩
  else emptyCollection

/-- **C7** counterexample: validating the French overlay REPLACES the base
ink record `amber` in the shared collections object with the translated
record — the base collections are not read-only ground truth, and a later
locale would be checked against this mutated snapshot. -/
theorem c7_counterexample :
    runI18N true "fr" frEnv baseCollsEx
      = .ok ⟨[("ink", [("amber", frInkRecord)]), ("trait", []), ("keyword", []),
              ("cycle", []), ("rarity", []), ("set", []), ("type", []),
              ("card", []), ("printing", [])], Errors.zero⟩
    ∧ frInkRecord ≠ inkRecord :=
  ⟨rfl, by decide⟩

/-- A (collection, code) entry is present in the collections object. -/
def collPresent (colls : Collections) (t code : String) : Prop :=
  ∃ m r, jsGet colls t = some m ∧ jsGet m code = some r

theorem jsGet_jsSet {α : Type} (m : List (String × α)) (k : String) (v : α)
    (k2 : String) :
    jsGet (jsSet m k v) k2 = if k = k2 then some v else jsGet m k2 := by
  induction m with
  | nil => by_cases h : k = k2 <;> simp [jsSet, jsGet, h]
  | cons kv rest ih =>
      obtain ⟨k₁, v₁⟩ := kv
      by_cases h1 : k₁ = k
      · subst h1
        by_cases h2 : k₁ = k2 <;> simp [jsSet, jsGet, h2]
      · by_cases h2 : k₁ = k2
        · subst h2
          have : ¬ k = k₁ := fun he => h1 he.symm
          simp [jsSet, jsGet, h1, this]
        · simp [jsSet, jsGet, h1, h2, ih]

theorem insertAll_preserves (items : List Record) :
    ∀ (m : CodeMap) (code : String) (r : Record),
    jsGet m code = some r → ∃ r2, jsGet (insertAll m items) code = some r2 := by
  induction items with
  | nil => exact fun m code r h => ⟨r, h⟩
  | cons i rest ih =>
      intro m code r h
      show ∃ r2, jsGet (insertAll (jsSet m (codeKey i) i) rest) code = some r2
      by_cases hk : codeKey i = code
      · exact ih _ code i (by rw [jsGet_jsSet, if_pos hk])
      · exact ih _ code r (by rw [jsGet_jsSet, if_neg hk]; exact h)

theorem loadCollections_preserves (colls : Collections) (thing : String)
    (items : List Record) (t code : String) :
    collPresent colls t code →
    collPresent (loadCollections colls thing items) t code := by
  rintro ⟨m, r, hm, hr⟩
  by_cases ht : thing = t
  · subst ht
    obtain ⟨r2, hr2⟩ := insertAll_preserves items m code r hr
    refine ⟨insertAll m items, r2, ?_, hr2⟩
    unfold loadCollections
    rw [hm, jsGet_jsSet, if_pos rfl]
  · refine ⟨m, r, ?_, hr⟩
    unfold loadCollections
    rw [jsGet_jsSet, if_neg ht]
    exact hm

theorem processThing_preserves
    (check : Collections → String → Record → Except String (List String))
    (fix : Bool) (env : String → CollectionFiles) (st : RunState)
    (tp : String × Bool) (out : RunState)
    (h : processThing check fix env st tp = .ok out) (t code : String)
    (hp : collPresent st.colls t code) : collPresent out.colls t code := by
  unfold processThing at h
  dsimp only at h
  obtain ⟨step, _, hout⟩ := except_bind_eq_ok h
  by_cases hs : step.2 = true
  · rw [if_pos hs, except_pure_eq] at hout
    cases hout
    exact loadCollections_preserves st.colls tp.1 _ t code hp
  · rw [if_neg hs, except_pure_eq] at hout
    cases hout
    exact hp

theorem foldlM_processThing_preserves
    (check : Collections → String → Record → Except String (List String))
    (fix : Bool) (env : String → CollectionFiles) (ts : List (String × Bool)) :
    ∀ (st out : RunState),
    ts.foldlM (processThing check fix env) st = .ok out →
    ∀ t code, collPresent st.colls t code → collPresent out.colls t code := by
  induction ts with
  | nil =>
      intro st out h t code hp
      rw [List.foldlM_nil, except_pure_eq] at h
      cases h
      exact hp
  | cons tp rest ih =>
      intro st out h t code hp
      rw [List.foldlM_cons] at h
      obtain ⟨st2, h1, h2⟩ := except_bind_eq_ok h
      exact ih st2 out h2 t code
        (processThing_preserves check fix env st tp st2 h1 t code hp)

/-- **C7** (amended): the base collections handed to each locale validator are
NOT read-only: schema-valid locale records are upserted into the shared
code→record mapping, replacing base entries with the same code and adding new
codes, and later locales are checked against the mutated state.  What does
hold is that no entry is ever removed: every (collection, code) pair present
before a locale pass is still present (possibly with a replaced record)
afterwards. -/
theorem c7_amended (fix : Bool) (locale : String)
    (env : String → CollectionFiles) (baseColls : Collections) (stL : RunState)
    (h : runI18N fix locale env baseColls = .ok stL) (t code : String)
    (hp : collPresent baseColls t code) : collPresent stL.colls t code :=
  foldlM_processThing_preserves (customCheckI18N locale) fix env thingsList
    ⟨baseColls, Errors.zero⟩ stL h t code hp

/-- **C7** witness: after the French pass, the (ink, amber) entry is still
present — with the replaced record. -/
theorem c7_amended_witness :
    collPresent [("ink", [("amber", frInkRecord)]), ("trait", []),
      ("keyword", []), ("cycle", []), ("rarity", []), ("set", []), ("type", []),
      ("card", []), ("printing", [])] "ink" "amber" :=
  c7_amended true "fr" frEnv baseCollsEx
    ⟨[("ink", [("amber", frInkRecord)]), ("trait", []), ("keyword", []),
      ("cycle", []), ("rarity", []), ("set", []), ("type", []), ("card", []),
      ("printing", [])], Errors.zero⟩
    rfl "ink" "amber" ⟨[("amber", inkRecord)], inkRecord, rfl, rfl⟩

/-! ## `update_locales.js`: the locale merge tool (C9)

`loadPrintings` reduces every printing to `_.pick(p, ["code", "flavor"])` —
the declared `position` is stripped at load time.  `mergeLists` merges the
keyed base and locale printings with `_.merge`, takes `values()`, and calls
`_.sortBy()` WITHOUT an iteratee (its local `sortFn` is declared but never
used): the identity criteria of two plain objects compare equal under
lodash's `compareAscending` (both coerce to `"[object Object]"`), and
`sortBy` tie-breaks by original index, so the sort keeps insertion order —
the base file's record order, then locale-only codes. -/

/-- `_.pick(obj, paths)`: the sub-record of the listed fields, in path order. -/
def pickFields (paths : List String) (r : Record) : Record :=
  paths.filterMap (fun k => (rget r k).map (fun v => (k, v)))

/-- The per-file body of `loadPrintings`. -/
def loadPrintingsFile (items : List Record) : List Record :=
  items.map (pickFields ["code", "flavor"])

/-- `` _.keyBy(list, p => `${p.code}`) ``: an object keyed by coerced code;
a later item with the same key replaces the earlier value in place. -/
def keyBy (items : List Record) : CodeMap := insertAll [] items

/-- `_.merge` of two picked printings (flat records of scalars): fields of the
later source win, fields missing there are kept from the earlier. -/
def mergeRecord (a b : Record) : Record := extendRec a b

/-- `_.merge({}, keyByDefault, keyByLocale)`: per matching key the records are
deep-merged; keys only in the locale map are appended in order. -/
def mergeMaps (a b : CodeMap) : CodeMap :=
  a.map (fun kv => match jsGet b kv.1 with
    | some w => (kv.1, mergeRecord kv.2 w)
    | none => kv)
    ++ b.filter (fun kv => (jsGet a kv.1).isNone)

/-- The `sortFn` that `mergeLists` declares — and never passes to `sortBy`:
the `position` of the base printing with a matching code. -/
def sortFn (defaultItems : List Record) (p : Record) : Option Field :=
  (defaultItems.find? (fun dp =>
    fieldKey (rget dp "code") == fieldKey (rget p "code"))).bind
    (fun dp => rget dp "position")

/-- The primitive coercion of a plain object, as used by JS `<`/`>`. -/
def objPrimitive (_ : Record) : String := "[object Object]"

/-- JS `<` on strings: lexicographic code-unit comparison. -/
def jsStrLt : List Char → List Char → Bool
  | [], [] => false
  | [], _ :: _ => true
  | _ :: _, [] => false
  | a :: as, b :: bs => if a < b then true else if b < a then false else jsStrLt as bs

/-- lodash `compareAscending` on two plain (non-symbol, defined, reflexive)
objects: neither coercion is less than the other, so the result is 0. -/
def compareAscending (a b : Record) : Int :=
  if jsStrLt (objPrimitive a).data (objPrimitive b).data then -1
  else if jsStrLt (objPrimitive b).data (objPrimitive a).data then 1
  else 0

/-- `compareMultiple`: compare the criteria, tie-break by original index. -/
def insertPair (x : Nat × Record) : List (Nat × Record) → List (Nat × Record)
  | [] => [x]
  | y :: ys =>
      if compareAscending x.2 y.2 < 0
          ∨ (compareAscending x.2 y.2 = 0 ∧ x.1 ≤ y.1) then x :: y :: ys
      else y :: insertPair x ys

def sortPairs : List (Nat × Record) → List (Nat × Record)
  | [] => []
  | x :: rest => insertPair x (sortPairs rest)

/-- `_.sortBy(objects)` with the default identity iteratee: a stable sort of
(index, value) pairs under `compareMultiple`. -/
def sortByIdentity (l : List Record) : List Record :=
  (sortPairs l.enum).map Prod.snd

/-- The per-file body of `mergeLists`. -/
def mergeListsFile (defaultItems localeItems : List Record) : List Record :=
  sortByIdentity ((mergeMaps (keyBy defaultItems) (keyBy localeItems)).map Prod.snd)

theorem jsStrLt_irrefl (l : List Char) : jsStrLt l l = false := by
  induction l with
  | nil => rfl
  | cons a as ih => simp [jsStrLt, ih]

theorem compareAscending_eq_zero (a b : Record) : compareAscending a b = 0 := by
  unfold compareAscending objPrimitive
  rw [jsStrLt_irrefl]
  simp

theorem sortPairs_sorted_id (l : List (Nat × Record))
    (h : l.Pairwise (fun a b => a.1 ≤ b.1)) : sortPairs l = l := by
  induction l with
  | nil => rfl
  | cons x rest ih =>
      have hp := List.pairwise_cons.mp h
      show insertPair x (sortPairs rest) = x :: rest
      rw [ih hp.2]
      cases rest with
      | nil => rfl
      | cons y ys =>
          show insertPair x (y :: ys) = x :: y :: ys
          unfold insertPair
          rw [if_pos]
          right
          exact ⟨compareAscending_eq_zero x.2 y.2, hp.1 y (List.mem_cons_self y ys)⟩

theorem enumFrom_fst_le (l : List Record) :
    ∀ (n : Nat) (y : Nat × Record), y ∈ l.enumFrom n → n ≤ y.1 := by
  induction l with
  | nil => intro n y hy; simp [List.enumFrom] at hy
  | cons x rest ih =>
      intro n y hy
      rw [List.enumFrom_cons] at hy
      cases hy with
      | head => exact Nat.le_refl n
      | tail _ hy => exact Nat.le_of_succ_le (ih (n + 1) y hy)

theorem enumFrom_pairwise (l : List Record) :
    ∀ (n : Nat), (l.enumFrom n).Pairwise (fun a b => a.1 ≤ b.1) := by
  induction l with
  | nil => intro n; simp [List.enumFrom]
  | cons x rest ih =>
      intro n
      rw [List.enumFrom_cons]
      refine List.pairwise_cons.mpr ⟨?_, ih (n + 1)⟩
      intro y hy
      exact Nat.le_of_succ_le (enumFrom_fst_le rest (n + 1) y hy)

/-- `_.sortBy` with identity criteria over plain objects never reorders. -/
theorem sortByIdentity_id (l : List Record) : sortByIdentity l = l := by
  unfold sortByIdentity
  rw [show l.enum = l.enumFrom 0 from rfl,
    sortPairs_sorted_id _ (enumFrom_pairwise l 0),
    ← show l.enum = l.enumFrom 0 from rfl]
  exact List.enum_map_snd l

def basePrintingsFile : List Record :=
  [[("code", .str "b"), ("position", .int 2), ("flavor", .str "X")],
   [("code", .str "a"), ("position", .int 1), ("flavor", .str "Y")]]

/-- **C9** counterexample: a base printings file listing its printings out of
position order (positions 2 then 1).  `loadPrintings` strips `position`
entirely, and the merged overlay list keeps the BASE FILE ORDER (code `b`
before code `a`), not the declared-position order (`a` before `b`): the
`sortFn` that would sort by position is dead code, never handed to
`_.sortBy`. -/
theorem c9_counterexample :
    mergeListsFile (loadPrintingsFile basePrintingsFile) []
      = [[("code", .str "b"), ("flavor", .str "X")],
         [("code", .str "a"), ("flavor", .str "Y")]]
    ∧ (mergeListsFile (loadPrintingsFile basePrintingsFile) []).map codeKey
      = ["b", "a"]
    ∧ rget (basePrintingsFile.getD 0 []) "position" = some (.int 2)
    ∧ rget (basePrintingsFile.getD 1 []) "position" = some (.int 1)
    ∧ (["b", "a"] : List String) ≠ ["a", "b"] := by
  decide

theorem codeKey_mergeRecord (a w : Record) (h : codeKey w = codeKey a) :
    codeKey (mergeRecord a w) = codeKey a := by
  unfold mergeRecord codeKey at *
  rw [rget_extendRec]
  cases hw : rget w "code" with
  | some v => rw [hw] at h; exact h
  | none => cases rget a "code" <;> rfl

theorem jsGet_mapform_codeKey (items : List Record) (c : String) (w : Record)
    (h : jsGet (items.map (fun j => (codeKey j, j))) c = some w) :
    codeKey w = c := by
  induction items with
  | nil => exact absurd h (by simp [jsGet])
  | cons j rest ih =>
      by_cases hc : codeKey j = c
      · simp only [List.map_cons, jsGet, if_pos hc] at h
        cases h
        exact hc
      · simp only [List.map_cons, jsGet, if_neg hc] at h
        exact ih h

theorem map_codeKey_mergePart (B : CodeMap)
    (hB : ∀ c w, jsGet B c = some w → codeKey w = c) (d : List Record) :
    (((d.map (fun i => (codeKey i, i))).map (fun kv =>
        match jsGet B kv.1 with
        | some w => (kv.1, mergeRecord kv.2 w)
        | none => kv)).map Prod.snd).map codeKey
      = d.map codeKey := by
  induction d with
  | nil => rfl
  | cons i rest ih =>
      cases hw : jsGet B (codeKey i) with
      | some w =>
          simp only [List.map_cons, hw]
          rw [codeKey_mergeRecord i w (hB _ _ hw), ih]
      | none =>
          simp only [List.map_cons, hw]
          rw [ih]

theorem map_codeKey_filterPart (A : CodeMap) (l : List Record) :
    (((l.map (fun j => (codeKey j, j))).filter
        (fun kv => (jsGet A kv.1).isNone)).map Prod.snd).map codeKey
      = (l.filter (fun j => (jsGet A (codeKey j)).isNone)).map codeKey := by
  induction l with
  | nil => rfl
  | cons j rest ih =>
      simp only [List.map_cons, List.filter_cons]
      cases hn : (jsGet A (codeKey j)).isNone <;> simp [hn, ih]

/-- **C9** (amended): for a base printings file and a locale overlay whose
loaded printings have pairwise-distinct codes, the merged list preserves the
BASE FILE's record order, followed by the locale-only printings in overlay
order.  It is ordered by the declared `position` values only when the base
file itself lists printings in position order — the positions are stripped by
`_.pick` at load time, and the `sortFn` that would use them is never passed
to `_.sortBy`. -/
theorem c9_amended (d l : List Record)
    (hd : (d.map codeKey).Nodup) (hl : (l.map codeKey).Nodup) :
    (mergeListsFile d l).map codeKey
      = d.map codeKey
        ++ (l.filter (fun j => (jsGet (keyBy d) (codeKey j)).isNone)).map codeKey := by
  have hkd : keyBy d = d.map (fun i => (codeKey i, i)) :=
    insertAll_fresh d [] (fun i _ => rfl) hd
  have hkl : keyBy l = l.map (fun j => (codeKey j, j)) :=
    insertAll_fresh l [] (fun i _ => rfl) hl
  unfold mergeListsFile mergeMaps
  rw [sortByIdentity_id]
  simp only [List.map_append]
  rw [hkd, hkl,
    map_codeKey_mergePart (l.map (fun j => (codeKey j, j)))
      (jsGet_mapform_codeKey l) d,
    map_codeKey_filterPart (d.map (fun i => (codeKey i, i))) l]

/-- **C9** witness: one base printing and one locale-only printing with
distinct codes — the merged order is base first, then the locale-only code. -/
theorem c9_amended_witness :
    (mergeListsFile [[("code", Field.str "p1"), ("flavor", Field.str "f")]]
        [[("code", Field.str "p2")]]).map codeKey
      = [[("code", Field.str "p1"), ("flavor", Field.str "f")]].map codeKey
        ++ ([[("code", Field.str "p2")]].filter (fun j =>
            (jsGet (keyBy [[("code", Field.str "p1"), ("flavor", Field.str "f")]])
              (codeKey j)).isNone)).map codeKey :=
  c9_amended [[("code", Field.str "p1"), ("flavor", Field.str "f")]]
    [[("code", Field.str "p2")]] (by decide) (by decide)

/-! ## The canonical form engine (C2)

`formatYaml(data, options)` serializes a parsed document with `js-yaml`'s
`dump` under the script's two option profiles (`schema` and `data`), then
re-joins the lines inserting a blank line before every non-first line that
starts with `-`.  The external serializer is modelled at its interface for
the flat records the data files hold: keys are sorted by the `sortKeys`
comparator (a stable sort, as `Array.prototype.sort` is), the `data` profile's
`replacer` prefixes the designated long-text fields with the `***` sentinel,
strings serialize single-quoted with quote doubling, lists serialize in block
style, and the line width is unbounded (no wrapping is modelled).  The parser
`yload` models `yaml.load` on this canonical subset. -/

/-- The fixed key priority list of the scripts. -/
def keysort : List String :=
  ["code", "card", "name", "version", "cost", "ink", "inkwell",
   "traits", "strength", "willpower", "lore", "text", "keywords", "set",
   "position", "rarity", "illustrator", "flavor", "args",
   "rules", "cycle", "size", "languages"]

/-- The `sortKeys` comparator: the index difference when both keys are listed,
0 (keep relative order) otherwise. -/
def cmpKeys (a b : String) : Int :=
  if keysort.contains a ∧ keysort.contains b then
    (keysort.indexOf a : Int) - (keysort.indexOf b : Int)
  else 0

/-- Stable insertion of a field into a comparator-sorted record: the element
passes every earlier field it does not strictly precede. -/
def insertKeyed (x : String × Field) : Record → Record
  | [] => [x]
  | y :: ys => if cmpKeys x.1 y.1 ≤ 0 then x :: y :: ys else y :: insertKeyed x ys

/-- The stable key sort `js-yaml` applies under the `sortKeys` option. -/
def sortFields : Record → Record
  | [] => []
  | x :: rest => insertKeyed x (sortFields rest)

/-- The adjacent-sortedness the comparator induces. -/
def keyLE (a b : String × Field) : Prop := cmpKeys a.1 b.1 ≤ 0

theorem cmpKeys_antisym {a b : String} (h : 0 < cmpKeys a b) : cmpKeys b a < 0 := by
  unfold cmpKeys at *
  by_cases hc : keysort.contains a ∧ keysort.contains b
  · rw [if_pos hc] at h
    rw [if_pos ⟨hc.2, hc.1⟩]
    omega
  · rw [if_neg hc] at h
    omega

theorem insertKeyed_chain (x : String × Field) (l : Record)
    (h : List.Chain' keyLE l) : List.Chain' keyLE (insertKeyed x l) := by
  induction l with
  | nil => simp [insertKeyed]
  | cons y ys ih =>
      by_cases hle : cmpKeys x.1 y.1 ≤ 0
      · rw [show insertKeyed x (y :: ys) = x :: y :: ys from by
          simp [insertKeyed, hle]]
        exact List.chain'_cons.mpr ⟨hle, h⟩
      · rw [show insertKeyed x (y :: ys) = y :: insertKeyed x ys from by
          simp [insertKeyed, hle]]
        have hyx : keyLE y x := le_of_lt (cmpKeys_antisym (by omega))
        cases ys with
        | nil =>
            rw [show insertKeyed x [] = [x] from rfl]
            exact List.chain'_cons.mpr ⟨hyx, List.chain'_singleton x⟩
        | cons w ws =>
            by_cases hlw : cmpKeys x.1 w.1 ≤ 0
            · rw [show insertKeyed x (w :: ws) = x :: w :: ws from by
                simp [insertKeyed, hlw]]
              exact List.chain'_cons.mpr ⟨hyx,
                List.chain'_cons.mpr ⟨hlw, (List.chain'_cons.mp h).2⟩⟩
            · rw [show insertKeyed x (w :: ws) = w :: insertKeyed x ws from by
                simp [insertKeyed, hlw]]
              have h2 := ih (List.chain'_cons.mp h).2
              rw [show insertKeyed x (w :: ws) = w :: insertKeyed x ws from by
                simp [insertKeyed, hlw]] at h2
              exact List.chain'_cons.mpr ⟨(List.chain'_cons.mp h).1, h2⟩

theorem sortFields_chain (l : Record) : List.Chain' keyLE (sortFields l) := by
  induction l with
  | nil => simp [sortFields]
  | cons x rest ih => exact insertKeyed_chain x (sortFields rest) ih

theorem sortFields_of_chain (l : Record) (h : List.Chain' keyLE l) :
    sortFields l = l := by
  induction l with
  | nil => rfl
  | cons x rest ih =>
      show insertKeyed x (sortFields rest) = x :: rest
      rw [ih (List.chain'_cons'.mp h).2]
      cases rest with
      | nil => rfl
      | cons y ys =>
          have hxy : cmpKeys x.1 y.1 ≤ 0 := (List.chain'_cons.mp h).1
          show insertKeyed x (y :: ys) = x :: y :: ys
          unfold insertKeyed
          rw [if_pos hxy]

/-- Sorting the keys twice is sorting them once: the canonical key order is a
fixpoint of the stable sort. -/
theorem sortFields_idem (l : Record) :
    sortFields (sortFields l) = sortFields l :=
  sortFields_of_chain (sortFields l) (sortFields_chain l)

/-- The long-text fields designated by both profiles' `replacer`. -/
def sentinelKeys : List String := ["text", "flavor", "rules"]

/-- The `data` profile's `replacer`:
`` _.includes(['text','flavor','rules'], key) ? `***${value}` : value ``. -/
def applyReplacer (r : Record) : Record :=
  r.map (fun kv =>
    if sentinelKeys.contains kv.1 then (kv.1, .str ("***" ++ jsToString kv.2))
    else kv)

/-- The two dump option profiles of the validator. -/
inductive DumpProfile where
  | schema
  | data
deriving DecidableEq, Repr

/-- The value transformation of a profile (only `data` has a replacer). -/
def applyProfile : DumpProfile → Record → Record
  | .schema, r => r
  | .data, r => applyReplacer r

/-- Decimal digits of a natural number, most significant first. -/
def natRepr (n : Nat) : List Char :=
  if n < 10 then [Nat.digitChar n]
  else natRepr (n / 10) ++ [Nat.digitChar (n % 10)]
decreasing_by exact Nat.div_lt_self (by omega) (by omega)

/-- Decimal rendering of an integer (as `js-yaml` emits it). -/
def intRepr (n : Int) : List Char :=
  if n < 0 then '-' :: natRepr (-n).toNat else natRepr n.toNat

/-- Double every single quote, the YAML single-quoted escape. -/
def escapeQuotes : List Char → List Char
  | [] => []
  | c :: rest =>
      if c = '\'' then '\'' :: '\'' :: escapeQuotes rest
      else c :: escapeQuotes rest

/-- Inline rendering of a scalar value: strings single-quoted, numbers and
booleans plain. -/
def renderValue : Field → List Char
  | .str s => '\'' :: (escapeQuotes s.data ++ ['\''])
  | .int n => intRepr n
  | .bool b => if b then "true".data else "false".data
  | .list _ => []

/-- The leading characters of a block list item line. -/
def itemPrefix : List Char := [' ', ' ', '-', ' ']

/-- The serialized lines of one field: scalars inline, empty lists inline as
`[]`, non-empty lists in block style with two-space indentation. -/
def fieldLines (kv : String × Field) : List (List Char) :=
  match kv.2 with
  | .list [] => [kv.1.data ++ (':' :: ' ' :: '[' :: [']'])]
  | .list (x :: xs) =>
      (kv.1.data ++ [':'])
        :: (x :: xs).map (fun item =>
              itemPrefix ++ '\'' :: (escapeQuotes item.data ++ ['\'']))
  | v => [kv.1.data ++ ':' :: ' ' :: renderValue v]

/-- All serialized lines of a record. -/
def renderRecord (r : Record) : List (List Char) :=
  (r.map fieldLines).flatten

/-- Join lines with newlines. -/
def joinLines : List (List Char) → List Char
  | [] => []
  | [l] => l
  | l :: rest => l ++ '\n' :: joinLines rest

/-- `yaml.dump(data, options)` on a flat record: sort the keys with the
profile's comparator, apply its replacer, serialize, end with a newline. -/
def dumpYaml (prof : DumpProfile) (r : Record) : String :=
  String.mk (joinLines (renderRecord (applyProfile prof (sortFields r)) ++ [[]]))

/-- Split a character stream at newlines (as JS `split("\n")`). -/
def splitLines : List Char → List (List Char)
  | [] => [[]]
  | c :: rest =>
      if c = '\n' then [] :: splitLines rest
      else match splitLines rest with
        | l :: ls => (c :: l) :: ls
        | [] => [[c]]

/-- The reducer of `formatYaml`: re-join the dump's lines, inserting a blank
line before every non-first line that starts with `-`. -/
def blankFold (lines : List (List Char)) : List (List Char) :=
  lines.foldl (fun acc line =>
    if line.take 1 = ['-'] ∧ acc ≠ [] then acc ++ [[], line]
    else acc ++ [line]) []

/-- `formatYaml(data, options)`: the canonical text of a record. -/
def formatYaml (prof : DumpProfile) (r : Record) : String :=
  String.mk (joinLines (blankFold (splitLines (dumpYaml prof r).data)))

/-! ### The YAML parser (`yaml.load`) on the canonical subset -/

/-- A decimal digit's value. -/
def digitVal (c : Char) : Option Nat :=
  if '0' ≤ c ∧ c ≤ '9' then some (c.toNat - '0'.toNat) else none

def natParseAux (acc : Nat) : List Char → Option Nat
  | [] => some acc
  | c :: rest =>
      match digitVal c with
      | some d => natParseAux (acc * 10 + d) rest
      | none => none

/-- Parse a non-empty digit string. -/
def natParse (cs : List Char) : Option Nat :=
  match cs with
  | [] => none
  | _ => natParseAux 0 cs

/-- Parse an optionally-negated decimal integer. -/
def intParse : List Char → Option Int
  | [] => none
  | c :: rest =>
      if c = '-' then (natParse rest).map (fun n => -(n : Int))
      else (natParse (c :: rest)).map (fun n => (n : Int))

/-- Undo quote doubling; the final character must be the closing quote. -/
def unescapeQuoted : List Char → Option (List Char)
  | [] => none
  | c :: rest =>
      if c = '\'' then
        match rest with
        | [] => some []
        | c2 :: rest2 =>
            if c2 = '\'' then (unescapeQuoted rest2).map (fun l => '\'' :: l)
            else none
      else (unescapeQuoted rest).map (fun l => c :: l)

/-- Parse an inline scalar. -/
def parseScalar (v : List Char) : Option Field :=
  if v = "true".data then some (.bool true)
  else if v = "false".data then some (.bool false)
  else if v = '[' :: [']'] then some (.list [])
  else match v with
    | [] => none
    | c :: rest =>
        if c = '\'' then (unescapeQuoted rest).map (fun l => .str (String.mk l))
        else (intParse (c :: rest)).map (fun n => .int n)

/-- Whether a line is a block list item line. -/
def isItemLine (l : List Char) : Bool := l.take 4 = itemPrefix

/-- Parse one block list item line. -/
def parseItem (l : List Char) : Option String :=
  match l.drop 4 with
  | [] => none
  | c :: rest =>
      if c = '\'' then (unescapeQuoted rest).map String.mk
      else none

/-- Split a key line at its first colon. -/
def splitAtColon : List Char → Option (List Char × List Char)
  | [] => none
  | c :: rest =>
      if c = ':' then some ([], rest)
      else (splitAtColon rest).map (fun p => (c :: p.1, p.2))

/-- Close a block list in progress (it must have collected an item). -/
def closePending (acc : Record) : Option (String × List String) → Option Record
  | none => some acc
  | some (_, []) => none
  | some (k, x :: xs) => some (acc ++ [(k, .list (x :: xs))])

/-- The line-by-line parser: `acc` holds the finished fields, `pending` a
block list under construction. -/
def parseLinesGo (acc : Record) (pending : Option (String × List String)) :
    List (List Char) → Option Record
  | [] => closePending acc pending
  | line :: rest =>
      if isItemLine line then
        match pending, parseItem line with
        | some (k, xs), some x => parseLinesGo acc (some (k, xs ++ [x])) rest
        | _, _ => none
      else
        match closePending acc pending with
        | none => none
        | some acc2 =>
            match splitAtColon line with
            | none => none
            | some (key, after) =>
                match after with
                | [] => parseLinesGo acc2 (some (String.mk key, [])) rest
                | c :: v =>
                    if c = ' ' then
                      match parseScalar v with
                      | some f =>
                          parseLinesGo (acc2 ++ [(String.mk key, f)]) none rest
                      | none => none
                    else none

/-- `yaml.load` on the canonical subset: split into lines, drop the final
empty line left by the trailing newline, parse the fields. -/
def yload (s : String) : Option Record :=
  if (splitLines s.data).getLast? = some [] then
    parseLinesGo [] none (splitLines s.data).dropLast
  else none

/-! ### Round-trip of the number rendering -/

theorem digitVal_digitChar {d : Nat} (h : d < 10) :
    digitVal (Nat.digitChar d) = some d := by
  interval_cases d <;> decide

theorem natParseAux_append (xs : List Char) : ∀ (acc a : Nat) (ys : List Char),
    natParseAux acc xs = some a →
    natParseAux acc (xs ++ ys) = natParseAux a ys := by
  induction xs with
  | nil =>
      intro acc a ys h
      simp only [natParseAux, Option.some.injEq] at h
      subst h
      rfl
  | cons c rest ih =>
      intro acc a ys h
      simp only [List.cons_append, natParseAux] at h ⊢
      cases hd : digitVal c with
      | some d =>
          simp only [hd] at h ⊢
          exact ih _ a ys h
      | none => exact Option.noConfusion (hd ▸ h)

theorem natParseAux_natRepr (n : Nat) : ∀ (acc : Nat),
    natParseAux acc (natRepr n) = some (acc * 10 ^ (natRepr n).length + n) := by
  induction n using Nat.strong_induction_on with
  | _ n ih =>
      intro acc
      by_cases h : n < 10
      · rw [natRepr, if_pos h]
        simp only [natParseAux, digitVal_digitChar h, List.length_cons,
          List.length_nil]
        norm_num
      · rw [natRepr, if_neg h]
        have hdiv : n / 10 < n := Nat.div_lt_self (by omega) (by omega)
        have h1 := ih (n / 10) hdiv acc
        have h2 := natParseAux_append (natRepr (n / 10)) acc
          (acc * 10 ^ (natRepr (n / 10)).length + n / 10)
          [Nat.digitChar (n % 10)] h1
        rw [h2]
        simp only [natParseAux, digitVal_digitChar (Nat.mod_lt n (by omega)),
          List.length_append, List.length_cons, List.length_nil,
          Option.some.injEq]
        rw [pow_succ, ← mul_assoc]
        have hdm := Nat.div_add_mod n 10
        generalize acc * 10 ^ (natRepr (n / 10)).length = A
        omega

theorem natRepr_ne_nil (n : Nat) : natRepr n ≠ [] := by
  rw [natRepr]
  by_cases h : n < 10 <;> simp [h]

theorem natParse_natRepr (n : Nat) : natParse (natRepr n) = some n := by
  have h := natParseAux_natRepr n 0
  cases hr : natRepr n with
  | nil => exact absurd hr (natRepr_ne_nil n)
  | cons c cs =>
      rw [hr] at h
      rw [show natParse (c :: cs) = natParseAux 0 (c :: cs) from rfl, h]
      simp

theorem natRepr_all_digits (n : Nat) :
    ∀ c ∈ natRepr n, (digitVal c).isSome := by
  induction n using Nat.strong_induction_on with
  | _ n ih =>
      intro c hc
      by_cases h : n < 10
      · rw [natRepr, if_pos h] at hc
        simp at hc
        rw [hc, digitVal_digitChar h]
        rfl
      · rw [natRepr, if_neg h] at hc
        rw [List.mem_append] at hc
        cases hc with
        | inl hm => exact ih (n / 10) (Nat.div_lt_self (by omega) (by omega)) c hm
        | inr hm =>
            simp at hm
            rw [hm, digitVal_digitChar (Nat.mod_lt n (by omega))]
            rfl

theorem intRepr_head (n : Int) :
    ∃ c cs, intRepr n = c :: cs ∧ (c = '-' ∨ (digitVal c).isSome) := by
  unfold intRepr
  by_cases h : n < 0
  · exact ⟨'-', natRepr (-n).toNat, by rw [if_pos h], Or.inl rfl⟩
  · rw [if_neg h]
    cases hr : natRepr n.toNat with
    | nil => exact absurd hr (natRepr_ne_nil _)
    | cons c cs =>
        refine ⟨c, cs, rfl, Or.inr ?_⟩
        exact natRepr_all_digits n.toNat c (by rw [hr]; exact List.mem_cons_self c cs)

theorem intParse_intRepr (n : Int) : intParse (intRepr n) = some n := by
  by_cases h : n < 0
  · rw [intRepr, if_pos h]
    simp only [intParse]
    rw [if_pos trivial, natParse_natRepr]
    simp
    omega
  · rw [intRepr, if_neg h]
    cases hr : natRepr n.toNat with
    | nil => exact absurd hr (natRepr_ne_nil _)
    | cons c cs =>
        have hc : ¬ c = '-' := by
          intro he
          have hd := natRepr_all_digits n.toNat c
            (by rw [hr]; exact List.mem_cons_self c cs)
          rw [he] at hd
          exact absurd hd (by decide)
        simp only [intParse, if_neg hc]
        rw [← hr, natParse_natRepr]
        simp
        omega

/-! ### Round-trip of quoting, lines, and scalars -/

theorem unescape_escape (l : List Char) :
    unescapeQuoted (escapeQuotes l ++ ['\'']) = some l := by
  induction l with
  | nil => rfl
  | cons c rest ih =>
      by_cases hq : c = '\''
      · subst hq
        show (unescapeQuoted (escapeQuotes rest ++ ['\''])).map
            (fun l => '\'' :: l) = some ('\'' :: rest)
        rw [ih]
        rfl
      · show unescapeQuoted (escapeQuotes (c :: rest) ++ ['\'']) = some (c :: rest)
        simp only [escapeQuotes]
        rw [if_neg hq]
        simp only [List.cons_append]
        cases hesc : escapeQuotes rest ++ ['\''] with
        | nil => exact absurd hesc (by simp)
        | cons e es =>
            show (if c = '\'' then
                (if e = '\'' then (unescapeQuoted es).map (fun l => '\'' :: l)
                 else none)
              else (unescapeQuoted (e :: es)).map (fun l => c :: l))
              = some (c :: rest)
            rw [if_neg hq, ← hesc, ih]
            rfl

theorem splitAtColon_append (key : List Char) (rest : List Char)
    (h : ':' ∉ key) :
    splitAtColon (key ++ ':' :: rest) = some (key, rest) := by
  induction key with
  | nil =>
      show splitAtColon (':' :: rest) = some ([], rest)
      simp [splitAtColon]
  | cons c cs ih =>
      have hc : ¬ c = ':' := fun he => h (he ▸ List.mem_cons_self c cs)
      have hcs : ':' ∉ cs := fun hm => h (List.mem_cons_of_mem c hm)
      show splitAtColon (c :: (cs ++ ':' :: rest)) = some (c :: cs, rest)
      simp only [splitAtColon]
      rw [if_neg hc, ih hcs]
      rfl

theorem splitLines_no_newline (l : List Char) (h : '\n' ∉ l) :
    splitLines l = [l] := by
  induction l with
  | nil => rfl
  | cons c rest ih =>
      have hc : ¬ c = '\n' := fun he => h (he ▸ List.mem_cons_self c rest)
      have hrest : '\n' ∉ rest := fun hm => h (List.mem_cons_of_mem c hm)
      simp only [splitLines]
      rw [if_neg hc, ih hrest]

theorem splitLines_line (l : List Char) (tail : List Char) (h : '\n' ∉ l) :
    splitLines (l ++ '\n' :: tail) = l :: splitLines tail := by
  induction l with
  | nil =>
      show splitLines ('\n' :: tail) = [] :: splitLines tail
      simp [splitLines]
  | cons c rest ih =>
      have hc : ¬ c = '\n' := fun he => h (he ▸ List.mem_cons_self c rest)
      have hrest : '\n' ∉ rest := fun hm => h (List.mem_cons_of_mem c hm)
      show splitLines (c :: (rest ++ '\n' :: tail)) = (c :: rest) :: splitLines tail
      simp only [splitLines]
      rw [if_neg hc, ih hrest]

theorem splitLines_joinLines (ls : List (List Char)) (hne : ls ≠ [])
    (h : ∀ l ∈ ls, '\n' ∉ l) : splitLines (joinLines ls) = ls := by
  induction ls with
  | nil => exact absurd rfl hne
  | cons l rest ih =>
      cases rest with
      | nil =>
          show splitLines (joinLines [l]) = [l]
          rw [show joinLines [l] = l from rfl]
          exact splitLines_no_newline l (h l (List.mem_cons_self l []))
      | cons l2 rest2 =>
          rw [show joinLines (l :: l2 :: rest2)
              = l ++ '\n' :: joinLines (l2 :: rest2) from rfl]
          rw [splitLines_line l _ (h l (List.mem_cons_self l _))]
          rw [ih (by simp) (fun x hx => h x (List.mem_cons_of_mem l hx))]

theorem mem_escapeQuotes (c : Char) (l : List Char)
    (h : c ∈ escapeQuotes l) : c ∈ l ∨ c = '\'' := by
  induction l with
  | nil => exact absurd h (by simp [escapeQuotes])
  | cons x rest ih =>
      by_cases hx : x = '\''
      · subst hx
        simp only [escapeQuotes, eq_self_iff_true, if_true] at h
        rw [List.mem_cons, List.mem_cons] at h
        rcases h with h | h | h
        · exact Or.inr h
        · exact Or.inr h
        · rcases ih h with hm | he
          · exact Or.inl (List.mem_cons_of_mem _ hm)
          · exact Or.inr he
      · simp only [escapeQuotes, if_neg hx] at h
        rw [List.mem_cons] at h
        rcases h with h | h
        · exact Or.inl (h ▸ List.mem_cons_self x rest)
        · rcases ih h with hm | he
          · exact Or.inl (List.mem_cons_of_mem _ hm)
          · exact Or.inr he

/-- A key the canonical-subset serializer renders unambiguously: non-empty,
not starting with `-` or a space, no colon, no newline. -/
def goodKey (k : String) : Prop :=
  k.data ≠ [] ∧ k.data.head? ≠ some '-' ∧ k.data.head? ≠ some ' '
    ∧ ':' ∉ k.data ∧ '\n' ∉ k.data

/-- A value within the canonical subset: no newline inside strings. -/
def goodValue : Field → Prop
  | .str s => '\n' ∉ s.data
  | .int _ => True
  | .bool _ => True
  | .list xs => ∀ x ∈ xs, '\n' ∉ x.data

instance (f : Field) : Decidable (goodValue f) :=
  match f with
  | .str s => inferInstanceAs (Decidable ('\n' ∉ s.data))
  | .int _ => inferInstanceAs (Decidable True)
  | .bool _ => inferInstanceAs (Decidable True)
  | .list xs => inferInstanceAs (Decidable (∀ x ∈ xs, '\n' ∉ x.data))

instance (k : String) : Decidable (goodKey k) :=
  inferInstanceAs (Decidable (k.data ≠ [] ∧ k.data.head? ≠ some '-'
    ∧ k.data.head? ≠ some ' ' ∧ ':' ∉ k.data ∧ '\n' ∉ k.data))

/-- The records the canonical-subset YAML model covers. -/
def wfRecord (r : Record) : Prop :=
  r ≠ [] ∧ ∀ kv ∈ r, goodKey kv.1 ∧ goodValue kv.2

instance (r : Record) : Decidable (wfRecord r) :=
  inferInstanceAs (Decidable (r ≠ [] ∧ ∀ kv ∈ r, goodKey kv.1 ∧ goodValue kv.2))

theorem parseScalar_of_head (c : Char) (tail : List Char)
    (h1 : c ≠ 't') (h2 : c ≠ 'f') (h3 : c ≠ '[') :
    parseScalar (c :: tail)
      = if c = '\'' then (unescapeQuoted tail).map (fun l => .str (String.mk l))
        else (intParse (c :: tail)).map (fun n => .int n) := by
  unfold parseScalar
  rw [if_neg (by
    intro h
    rw [show ("true".data : List Char) = 't' :: "rue".data from by decide] at h
    injection h with hh
    exact h1 hh)]
  rw [if_neg (by
    intro h
    rw [show ("false".data : List Char) = 'f' :: "alse".data from by decide] at h
    injection h with hh
    exact h2 hh)]
  rw [if_neg (by
    intro h
    injection h with hh
    exact h3 hh)]

theorem parseScalar_str (s : String) :
    parseScalar (renderValue (.str s)) = some (.str s) := by
  show parseScalar ('\'' :: (escapeQuotes s.data ++ ['\''])) = some (.str s)
  rw [parseScalar_of_head '\'' _ (by decide) (by decide) (by decide),
    if_pos rfl, unescape_escape]
  show some (Field.str (String.mk s.data)) = some (Field.str s)
  rw [show String.mk s.data = s from by cases s; rfl]

theorem intRepr_all (n : Int) :
    ∀ c ∈ intRepr n, c = '-' ∨ (digitVal c).isSome := by
  intro c hc
  unfold intRepr at hc
  by_cases h : n < 0
  · rw [if_pos h, List.mem_cons] at hc
    rcases hc with hc | hc
    · exact Or.inl hc
    · exact Or.inr (natRepr_all_digits _ c hc)
  · rw [if_neg h] at hc
    exact Or.inr (natRepr_all_digits _ c hc)

theorem parseScalar_int (n : Int) :
    parseScalar (renderValue (.int n)) = some (.int n) := by
  show parseScalar (intRepr n) = some (.int n)
  obtain ⟨c, cs, hv, hc⟩ := intRepr_head n
  have hcn : ∀ x : Char, digitVal x = none → x ≠ '-' → c ≠ x := by
    intro x hxnone hxdash he
    subst he
    rcases hc with h | h
    · exact hxdash h
    · rw [hxnone] at h
      simp at h
  rw [hv, parseScalar_of_head c cs (hcn 't' (by decide) (by decide))
    (hcn 'f' (by decide) (by decide)) (hcn '[' (by decide) (by decide))]
  rw [if_neg (hcn '\'' (by decide) (by decide)), ← hv, intParse_intRepr]
  rfl

theorem strMk_data (s : String) : String.mk s.data = s := by cases s; rfl

theorem isItemLine_false (c : Char) (rest : List Char) (hc : c ≠ ' ') :
    isItemLine (c :: rest) = false := by
  simp only [isItemLine, itemPrefix, decide_eq_false_iff_not]
  intro h
  rw [show (c :: rest).take 4 = c :: rest.take 3 from rfl] at h
  injection h with h1
  exact hc h1

theorem isItemLine_item (z : List Char) : isItemLine (itemPrefix ++ z) = true := by
  simp [isItemLine, itemPrefix, List.take]

theorem parseItem_rendered (x : String) :
    parseItem (itemPrefix ++ '\'' :: (escapeQuotes x.data ++ ['\''])) = some x := by
  show (unescapeQuoted (escapeQuotes x.data ++ ['\''])).map String.mk = some x
  rw [unescape_escape]
  show some (String.mk x.data) = some x
  rw [strMk_data]

/-- The next line (if any) does not look like a block list item. -/
def notItemHead : List (List Char) → Prop
  | [] => True
  | l :: _ => isItemLine l = false

theorem parseLinesGo_items (xs : List String) : ∀ (k : String)
    (col : List String) (acc : Record) (ltail : List (List Char)),
    parseLinesGo acc (some (k, col))
        ((xs.map (fun item =>
          itemPrefix ++ '\'' :: (escapeQuotes item.data ++ ['\'']))) ++ ltail)
      = parseLinesGo acc (some (k, col ++ xs)) ltail := by
  induction xs with
  | nil => intro k col acc ltail; simp
  | cons x rest ih =>
      intro k col acc ltail
      rw [List.map_cons, List.cons_append]
      simp only [parseLinesGo, isItemLine_item, parseItem_rendered]
      rw [if_pos trivial]
      rw [ih k (col ++ [x]) acc ltail]
      rw [List.append_assoc, List.singleton_append]

theorem parseLinesGo_close (k : String) (xs : List String) (hxs : xs ≠ [])
    (acc : Record) (ltail : List (List Char)) (hni : notItemHead ltail) :
    parseLinesGo acc (some (k, xs)) ltail
      = parseLinesGo (acc ++ [(k, .list xs)]) none ltail := by
  cases xs with
  | nil => exact absurd rfl hxs
  | cons x rest =>
      cases ltail with
      | nil => rfl
      | cons l ls =>
          have hni2 : isItemLine l = false := hni
          simp only [parseLinesGo, hni2]
          rw [if_neg (by decide)]
          rfl

theorem parseLinesGo_scalar_line (key : String) (v : Field) (vchars : List Char)
    (hk : goodKey key) (hps : parseScalar vchars = some v)
    (acc : Record) (ltail : List (List Char)) :
    parseLinesGo acc none ((key.data ++ ':' :: ' ' :: vchars) :: ltail)
      = parseLinesGo (acc ++ [(key, v)]) none ltail := by
  obtain ⟨c, krest, hkey⟩ : ∃ c krest, key.data = c :: krest := by
    cases hd : key.data with
    | nil => exact absurd hd hk.1
    | cons c r => exact ⟨c, r, rfl⟩
  have hcsp : c ≠ ' ' := by
    intro he
    exact hk.2.2.1 (by rw [hkey, he]; rfl)
  have hline : key.data ++ ':' :: ' ' :: vchars
      = c :: (krest ++ ':' :: ' ' :: vchars) := by
    rw [hkey]
    rfl
  rw [hline]
  simp only [parseLinesGo, isItemLine_false c _ hcsp]
  rw [if_neg (by decide)]
  rw [show closePending acc none = some acc from rfl]
  rw [← hline, show key.data ++ ':' :: ' ' :: vchars
      = key.data ++ ':' :: (' ' :: vchars) from rfl,
    splitAtColon_append key.data (' ' :: vchars) hk.2.2.2.1]
  dsimp only
  rw [if_pos rfl, hps]

theorem parseScalar_bool (b : Bool) :
    parseScalar (renderValue (.bool b)) = some (.bool b) := by
  cases b <;> decide

theorem parseLinesGo_listheader (key : String) (hk : goodKey key)
    (acc : Record) (rest : List (List Char)) :
    parseLinesGo acc none ((key.data ++ [':']) :: rest)
      = parseLinesGo acc (some (key, [])) rest := by
  obtain ⟨c, krest, hkey⟩ : ∃ c krest, key.data = c :: krest := by
    cases hd : key.data with
    | nil => exact absurd hd hk.1
    | cons c r => exact ⟨c, r, rfl⟩
  have hcsp : c ≠ ' ' := by
    intro he
    exact hk.2.2.1 (by rw [hkey, he]; rfl)
  have hline : key.data ++ [':'] = c :: (krest ++ [':']) := by
    rw [hkey]
    rfl
  rw [hline]
  simp only [parseLinesGo, isItemLine_false c _ hcsp]
  rw [if_neg (by decide)]
  rw [show closePending acc none = some acc from rfl]
  rw [← hline, show key.data ++ [':'] = key.data ++ ':' :: [] from rfl,
    splitAtColon_append key.data [] hk.2.2.2.1]

/-- Consuming one serialized field from the line stream appends it to the
parsed record. -/
theorem parseLinesGo_field (kv : String × Field) (hk : goodKey kv.1)
    (hv : goodValue kv.2) (acc : Record) (ltail : List (List Char))
    (hni : notItemHead ltail) :
    parseLinesGo acc none (fieldLines kv ++ ltail)
      = parseLinesGo (acc ++ [kv]) none ltail := by
  obtain ⟨key, v⟩ := kv
  cases v with
  | str s =>
      rw [show fieldLines (key, .str s)
          = [key.data ++ ':' :: ' ' :: renderValue (.str s)] from rfl,
        List.singleton_append]
      exact parseLinesGo_scalar_line key (.str s) _ hk (parseScalar_str s) acc ltail
  | int n =>
      rw [show fieldLines (key, .int n)
          = [key.data ++ ':' :: ' ' :: renderValue (.int n)] from rfl,
        List.singleton_append]
      exact parseLinesGo_scalar_line key (.int n) _ hk (parseScalar_int n) acc ltail
  | bool b =>
      rw [show fieldLines (key, .bool b)
          = [key.data ++ ':' :: ' ' :: renderValue (.bool b)] from rfl,
        List.singleton_append]
      exact parseLinesGo_scalar_line key (.bool b) _ hk (parseScalar_bool b) acc ltail
  | list xs =>
      cases xs with
      | nil =>
          rw [show fieldLines (key, .list [])
              = [key.data ++ ':' :: ' ' :: ('[' :: [']'])] from rfl,
            List.singleton_append]
          exact parseLinesGo_scalar_line key (.list []) ('[' :: [']']) hk
            (by decide) acc ltail
      | cons x xs2 =>
          rw [show fieldLines (key, .list (x :: xs2))
              = (key.data ++ [':'])
                :: ((x :: xs2).map (fun item =>
                      itemPrefix ++ '\'' :: (escapeQuotes item.data ++ ['\''])))
              from rfl, List.cons_append]
          rw [parseLinesGo_listheader key hk acc _]
          rw [parseLinesGo_items (x :: xs2) key [] acc ltail]
          rw [List.nil_append]
          exact parseLinesGo_close key (x :: xs2) (by simp) acc ltail hni

theorem fieldLines_head (kv : String × Field) :
    ∃ t, fieldLines kv = (kv.1.data ++ t) :: (fieldLines kv).tail := by
  obtain ⟨key, v⟩ := kv
  cases v with
  | str s => exact ⟨':' :: ' ' :: renderValue (.str s), rfl⟩
  | int n => exact ⟨':' :: ' ' :: renderValue (.int n), rfl⟩
  | bool b => exact ⟨':' :: ' ' :: renderValue (.bool b), rfl⟩
  | list xs =>
      cases xs with
      | nil => exact ⟨':' :: ' ' :: '[' :: [']'], rfl⟩
      | cons x xs2 => exact ⟨[':'], rfl⟩

theorem renderRecord_notItemHead (r : Record)
    (h : ∀ kv ∈ r, goodKey kv.1) : notItemHead (renderRecord r) := by
  cases r with
  | nil => trivial
  | cons kv rest =>
      have hk := h kv (List.mem_cons_self kv rest)
      obtain ⟨c, krest, hkey⟩ : ∃ c krest, kv.1.data = c :: krest := by
        cases hd : kv.1.data with
        | nil => exact absurd hd hk.1
        | cons c r2 => exact ⟨c, r2, rfl⟩
      have hcsp : c ≠ ' ' := by
        intro he
        exact hk.2.2.1 (by rw [hkey, he]; rfl)
      obtain ⟨t, ht⟩ := fieldLines_head kv
      show notItemHead (renderRecord (kv :: rest))
      rw [show renderRecord (kv :: rest) = fieldLines kv ++ renderRecord rest
        from rfl, ht, hkey]
      show isItemLine (c :: (krest ++ t)) = false
      exact isItemLine_false c _ hcsp

/-- Parsing the rendered lines of a well-formed record recovers it. -/
theorem parse_render (r : Record) : ∀ (acc : Record),
    (∀ kv ∈ r, goodKey kv.1 ∧ goodValue kv.2) →
    parseLinesGo acc none (renderRecord r) = some (acc ++ r) := by
  induction r with
  | nil =>
      intro acc _
      simp [renderRecord, parseLinesGo, closePending]
  | cons kv rest ih =>
      intro acc h
      rw [show renderRecord (kv :: rest) = fieldLines kv ++ renderRecord rest
        from rfl]
      rw [parseLinesGo_field kv (h kv (List.mem_cons_self kv rest)).1
        (h kv (List.mem_cons_self kv rest)).2 acc _
        (renderRecord_notItemHead rest
          (fun kv2 hm => (h kv2 (List.mem_cons_of_mem kv hm)).1))]
      rw [ih (acc ++ [kv]) (fun kv2 hm => h kv2 (List.mem_cons_of_mem kv hm))]
      simp

theorem renderValue_no_newline (v : Field) (hv : goodValue v) :
    '\n' ∉ renderValue v := by
  cases v with
  | str s =>
      intro hm
      rw [show renderValue (.str s) = '\'' :: (escapeQuotes s.data ++ ['\''])
        from rfl, List.mem_cons] at hm
      rcases hm with hm | hm
      · exact absurd hm (by decide)
      · rw [List.mem_append] at hm
        rcases hm with hm | hm
        · rcases mem_escapeQuotes _ _ hm with hm2 | hm2
          · exact hv hm2
          · exact absurd hm2 (by decide)
        · rw [List.mem_singleton] at hm
          exact absurd hm (by decide)
  | int n =>
      intro hm
      rcases intRepr_all n '\n' hm with h | h
      · exact absurd h (by decide)
      · rw [show digitVal '\n' = none from by decide] at h
        simp at h
  | bool b => cases b <;> decide
  | list xs => simp [renderValue]

theorem item_line_no_newline (x : String) (hx : '\n' ∉ x.data) :
    '\n' ∉ itemPrefix ++ '\'' :: (escapeQuotes x.data ++ ['\'']) := by
  intro hm
  rw [List.mem_append, List.mem_cons, List.mem_append, List.mem_singleton] at hm
  rcases hm with hm | hm | hm | hm
  · exact absurd hm (by decide)
  · exact absurd hm (by decide)
  · rcases mem_escapeQuotes _ _ hm with hm2 | hm2
    · exact hx hm2
    · exact absurd hm2 (by decide)
  · exact absurd hm (by decide)

theorem scalar_line_no_newline (key : String) (t : List Char)
    (hk : '\n' ∉ key.data) (ht : '\n' ∉ t) : '\n' ∉ key.data ++ t := by
  intro hm
  rw [List.mem_append] at hm
  rcases hm with hm | hm
  · exact hk hm
  · exact ht hm

theorem fieldLines_no_newline (kv : String × Field) (hk : goodKey kv.1)
    (hv : goodValue kv.2) : ∀ l ∈ fieldLines kv, '\n' ∉ l := by
  obtain ⟨key, v⟩ := kv
  have hknl : '\n' ∉ key.data := hk.2.2.2.2
  cases v with
  | str s =>
      intro l hl
      rw [show fieldLines (key, .str s)
          = [key.data ++ ':' :: ' ' :: renderValue (.str s)] from rfl,
        List.mem_singleton] at hl
      subst hl
      refine scalar_line_no_newline key _ hknl ?_
      intro hm
      rw [List.mem_cons, List.mem_cons] at hm
      rcases hm with hm | hm | hm
      · exact absurd hm (by decide)
      · exact absurd hm (by decide)
      · exact renderValue_no_newline (.str s) hv hm
  | int n =>
      intro l hl
      rw [show fieldLines (key, .int n)
          = [key.data ++ ':' :: ' ' :: renderValue (.int n)] from rfl,
        List.mem_singleton] at hl
      subst hl
      refine scalar_line_no_newline key _ hknl ?_
      intro hm
      rw [List.mem_cons, List.mem_cons] at hm
      rcases hm with hm | hm | hm
      · exact absurd hm (by decide)
      · exact absurd hm (by decide)
      · exact renderValue_no_newline (.int n) hv hm
  | bool b =>
      intro l hl
      rw [show fieldLines (key, .bool b)
          = [key.data ++ ':' :: ' ' :: renderValue (.bool b)] from rfl,
        List.mem_singleton] at hl
      subst hl
      refine scalar_line_no_newline key _ hknl ?_
      intro hm
      rw [List.mem_cons, List.mem_cons] at hm
      rcases hm with hm | hm | hm
      · exact absurd hm (by decide)
      · exact absurd hm (by decide)
      · exact renderValue_no_newline (.bool b) hv hm
  | list xs =>
      cases xs with
      | nil =>
          intro l hl
          rw [show fieldLines (key, .list [])
              = [key.data ++ (':' :: ' ' :: '[' :: [']'])] from rfl,
            List.mem_singleton] at hl
          subst hl
          refine scalar_line_no_newline key _ hknl ?_
          decide
      | cons x xs2 =>
          intro l hl
          rw [show fieldLines (key, .list (x :: xs2))
              = (key.data ++ [':'])
                :: ((x :: xs2).map (fun item =>
                    itemPrefix ++ '\'' :: (escapeQuotes item.data ++ ['\''])))
              from rfl, List.mem_cons] at hl
          rcases hl with hl | hl
          · subst hl
            refine scalar_line_no_newline key _ hknl ?_
            decide
          · rw [List.mem_map] at hl
            obtain ⟨item, hitem, hle⟩ := hl
            subst hle
            exact item_line_no_newline item (hv item hitem)

theorem renderRecord_no_newline (r : Record)
    (h : ∀ kv ∈ r, goodKey kv.1 ∧ goodValue kv.2) :
    ∀ l ∈ renderRecord r, '\n' ∉ l := by
  intro l hl
  unfold renderRecord at hl
  rw [List.mem_flatten] at hl
  obtain ⟨ls, hls, hlm⟩ := hl
  rw [List.mem_map] at hls
  obtain ⟨kv, hkv, hfe⟩ := hls
  exact fieldLines_no_newline kv (h kv hkv).1 (h kv hkv).2 l (hfe ▸ hlm)

theorem fieldLines_take1 (kv : String × Field) (hk : goodKey kv.1) :
    ∀ l ∈ fieldLines kv, l.take 1 ≠ ['-'] := by
  obtain ⟨key, v⟩ := kv
  obtain ⟨c, krest, hkey⟩ : ∃ c krest, key.data = c :: krest := by
    cases hd : key.data with
    | nil => exact absurd hd hk.1
    | cons c r2 => exact ⟨c, r2, rfl⟩
  have hcd : c ≠ '-' := by
    intro he
    exact hk.2.1 (by rw [hkey, he]; rfl)
  have hkeyline : ∀ t : List Char, (key.data ++ t).take 1 ≠ ['-'] := by
    intro t he
    rw [hkey, show ((c :: krest) ++ t).take 1 = [c] from rfl] at he
    injection he with h1
    exact hcd h1
  have hitemline : ∀ z : List Char, (itemPrefix ++ z).take 1 ≠ ['-'] := by
    intro z he
    rw [show (itemPrefix ++ z).take 1 = [' '] from rfl] at he
    injection he with h1
    exact absurd h1 (by decide)
  cases v with
  | str s =>
      intro l hl
      rw [show fieldLines (key, .str s)
          = [key.data ++ ':' :: ' ' :: renderValue (.str s)] from rfl,
        List.mem_singleton] at hl
      subst hl
      exact hkeyline _
  | int n =>
      intro l hl
      rw [show fieldLines (key, .int n)
          = [key.data ++ ':' :: ' ' :: renderValue (.int n)] from rfl,
        List.mem_singleton] at hl
      subst hl
      exact hkeyline _
  | bool b =>
      intro l hl
      rw [show fieldLines (key, .bool b)
          = [key.data ++ ':' :: ' ' :: renderValue (.bool b)] from rfl,
        List.mem_singleton] at hl
      subst hl
      exact hkeyline _
  | list xs =>
      cases xs with
      | nil =>
          intro l hl
          rw [show fieldLines (key, .list [])
              = [key.data ++ (':' :: ' ' :: '[' :: [']'])] from rfl,
            List.mem_singleton] at hl
          subst hl
          exact hkeyline _
      | cons x xs2 =>
          intro l hl
          rw [show fieldLines (key, .list (x :: xs2))
              = (key.data ++ [':'])
                :: ((x :: xs2).map (fun item =>
                    itemPrefix ++ '\'' :: (escapeQuotes item.data ++ ['\''])))
              from rfl, List.mem_cons] at hl
          rcases hl with hl | hl
          · subst hl
            exact hkeyline _
          · rw [List.mem_map] at hl
            obtain ⟨item, _, hle⟩ := hl
            subst hle
            exact hitemline _

theorem renderRecord_take1 (r : Record) (h : ∀ kv ∈ r, goodKey kv.1) :
    ∀ l ∈ renderRecord r, l.take 1 ≠ ['-'] := by
  intro l hl
  unfold renderRecord at hl
  rw [List.mem_flatten] at hl
  obtain ⟨ls, hls, hlm⟩ := hl
  rw [List.mem_map] at hls
  obtain ⟨kv, hkv, hfe⟩ := hls
  exact fieldLines_take1 kv (h kv hkv) l (hfe ▸ hlm)

theorem blankFold_step (lines : List (List Char)) :
    ∀ (acc : List (List Char)), (∀ l ∈ lines, l.take 1 ≠ ['-']) →
    lines.foldl (fun acc line =>
      if line.take 1 = ['-'] ∧ acc ≠ [] then acc ++ [[], line]
      else acc ++ [line]) acc = acc ++ lines := by
  induction lines with
  | nil => intro acc _; simp
  | cons l rest ih =>
      intro acc h
      rw [List.foldl_cons,
        if_neg (fun hc => (h l (List.mem_cons_self l rest)) hc.1),
        ih (acc ++ [l]) (fun x hx => h x (List.mem_cons_of_mem l hx))]
      simp

/-- The blank-line pass of `formatYaml` never fires on a single well-formed
record: no rendered line starts with `-`. -/
theorem blankFold_id (lines : List (List Char))
    (h : ∀ l ∈ lines, l.take 1 ≠ ['-']) : blankFold lines = lines := by
  unfold blankFold
  rw [blankFold_step lines [] h]
  rfl

theorem dumpYaml_lines_no_newline (prof : DumpProfile) (r : Record)
    (hwf : wfRecord (applyProfile prof (sortFields r))) :
    ∀ l ∈ renderRecord (applyProfile prof (sortFields r)) ++ [[]], '\n' ∉ l := by
  intro l hl
  rw [List.mem_append, List.mem_singleton] at hl
  rcases hl with hl | hl
  · exact renderRecord_no_newline _ hwf.2 l hl
  · subst hl
    simp

/-- `formatYaml` coincides with the plain dump on well-formed records: the
blank-line insertion never applies. -/
theorem formatYaml_eq_dump (prof : DumpProfile) (r : Record)
    (hwf : wfRecord (applyProfile prof (sortFields r))) :
    formatYaml prof r = dumpYaml prof r := by
  unfold formatYaml
  rw [show (dumpYaml prof r).data
      = joinLines (renderRecord (applyProfile prof (sortFields r)) ++ [[]])
      from rfl]
  rw [splitLines_joinLines _ (by simp) (dumpYaml_lines_no_newline prof r hwf)]
  rw [blankFold_id _ ?htake]
  · rfl
  case htake =>
    intro l hl
    rw [List.mem_append, List.mem_singleton] at hl
    rcases hl with hl | hl
    · exact renderRecord_take1 _ (fun kv hm => (hwf.2 kv hm).1) l hl
    · subst hl
      decide

/-- Parsing the canonical dump of a well-formed record recovers the sorted,
replacer-transformed record. -/
theorem yload_dump (prof : DumpProfile) (r : Record)
    (hwf : wfRecord (applyProfile prof (sortFields r))) :
    yload (dumpYaml prof r) = some (applyProfile prof (sortFields r)) := by
  unfold yload
  rw [show (dumpYaml prof r).data
      = joinLines (renderRecord (applyProfile prof (sortFields r)) ++ [[]])
      from rfl]
  rw [splitLines_joinLines _ (by simp) (dumpYaml_lines_no_newline prof r hwf)]
  rw [if_pos (List.getLast?_concat _), List.dropLast_concat]
  rw [parse_render _ [] hwf.2]
  simp

theorem mem_insertKeyed (x : String × Field) (l : Record) (y : String × Field)
    (hy : y ∈ insertKeyed x l) : y = x ∨ y ∈ l := by
  induction l with
  | nil =>
      rw [show insertKeyed x [] = [x] from rfl, List.mem_singleton] at hy
      exact Or.inl hy
  | cons z zs ih =>
      by_cases hle : cmpKeys x.1 z.1 ≤ 0
      · rw [show insertKeyed x (z :: zs) = x :: z :: zs from by
          simp [insertKeyed, hle], List.mem_cons] at hy
        rcases hy with hy | hy
        · exact Or.inl hy
        · exact Or.inr hy
      · rw [show insertKeyed x (z :: zs) = z :: insertKeyed x zs from by
          simp [insertKeyed, hle], List.mem_cons] at hy
        rcases hy with hy | hy
        · exact Or.inr (hy ▸ List.mem_cons_self z zs)
        · rcases ih hy with hy2 | hy2
          · exact Or.inl hy2
          · exact Or.inr (List.mem_cons_of_mem z hy2)

theorem mem_sortFields (l : Record) (y : String × Field)
    (hy : y ∈ sortFields l) : y ∈ l := by
  induction l with
  | nil => exact absurd hy (by simp [sortFields])
  | cons x rest ih =>
      rcases mem_insertKeyed x (sortFields rest) y hy with h | h
      · exact h ▸ List.mem_cons_self x rest
      · exact List.mem_cons_of_mem x (ih h)

theorem insertKeyed_ne_nil (x : String × Field) (l : Record) :
    insertKeyed x l ≠ [] := by
  cases l with
  | nil => simp [insertKeyed]
  | cons z zs =>
      by_cases hle : cmpKeys x.1 z.1 ≤ 0 <;> simp [insertKeyed, hle]

theorem wfRecord_sortFields (r : Record) (h : wfRecord r) :
    wfRecord (sortFields r) := by
  refine ⟨?_, fun kv hm => h.2 kv (mem_sortFields r kv hm)⟩
  cases r with
  | nil => exact absurd rfl h.1
  | cons x rest => exact insertKeyed_ne_nil x (sortFields rest)

theorem applyReplacer_id (r : Record)
    (h : ∀ kv ∈ r, kv.1 ∉ sentinelKeys) : applyReplacer r = r := by
  induction r with
  | nil => rfl
  | cons kv rest ih =>
      have hcont : sentinelKeys.contains kv.1 = false := by
        cases hb : sentinelKeys.contains kv.1 with
        | false => rfl
        | true =>
            exact absurd (List.elem_iff.mp hb)
              (h kv (List.mem_cons_self kv rest))
      rw [show applyReplacer (kv :: rest)
          = (if sentinelKeys.contains kv.1 then
              (kv.1, Field.str ("***" ++ jsToString kv.2))
             else kv) :: applyReplacer rest from rfl]
      rw [hcont]
      rw [if_neg (by decide)]
      rw [ih (fun kv2 hm => h kv2 (List.mem_cons_of_mem kv hm))]

/-- Under the schema profile, or under the data profile when no designated
long-text field occurs, the profile transformation fixes the sorted record. -/
theorem applyProfile_collapse (prof : DumpProfile) (r : Record)
    (hprof : prof = .schema ∨ ∀ kv ∈ r, kv.1 ∉ sentinelKeys) :
    applyProfile prof (sortFields r) = sortFields r := by
  cases prof with
  | schema => rfl
  | data =>
      rcases hprof with h | h
      · exact absurd h (by simp)
      · exact applyReplacer_id (sortFields r)
          (fun kv hm => h kv (mem_sortFields r kv hm))

/-- **C2** counterexample: under the `data` profile, a record with a
designated long-text field is NOT a canonicalization fixpoint — the
`replacer` prepends the `***` sentinel again on every pass: the canonical
text of `\x7btext: "foo"\x7d` is `text: '***foo'`, but canonicalizing its
parse yields `text: '******foo'`. -/
theorem c2_counterexample :
    formatYaml .data [("text", Field.str "foo")] = "text: '***foo'\n"
    ∧ (yload (formatYaml .data [("text", Field.str "foo")])).map
        (formatYaml .data) = some "text: '******foo'\n"
    ∧ ("text: '******foo'\n" : String) ≠ "text: '***foo'\n" :=
  ⟨by decide, by decide, by decide⟩

/-- **C2** (amended): canonicalization is idempotent for the schema profile
always, and for the data profile exactly when the record declares none of the
designated long-text fields (`text`, `flavor`, `rules`): parsing the canonical
text and re-canonicalizing reproduces the text.  With such a field under the
data profile the `***` sentinel accumulates and the fixpoint fails. -/
theorem c2_amended (prof : DumpProfile) (r : Record) (hwf : wfRecord r)
    (hprof : prof = .schema ∨ ∀ kv ∈ r, kv.1 ∉ sentinelKeys) :
    (yload (formatYaml prof r)).map (formatYaml prof)
      = some (formatYaml prof r) := by
  have hcol : applyProfile prof (sortFields r) = sortFields r :=
    applyProfile_collapse prof r hprof
  have hwfs : wfRecord (sortFields r) := wfRecord_sortFields r hwf
  have hwfs2 : wfRecord (applyProfile prof (sortFields r)) := by
    rw [hcol]
    exact hwfs
  have hidem : sortFields (sortFields r) = sortFields r := sortFields_idem r
  have hcol2 : applyProfile prof (sortFields (sortFields r)) = sortFields r := by
    rw [hidem]
    exact hcol
  have hwfs3 : wfRecord (applyProfile prof (sortFields (sortFields r))) := by
    rw [hcol2]
    exact hwfs
  rw [formatYaml_eq_dump prof r hwfs2, yload_dump prof r hwfs2, hcol]
  show some (formatYaml prof (sortFields r)) = some (dumpYaml prof r)
  rw [formatYaml_eq_dump prof (sortFields r) hwfs3]
  unfold dumpYaml
  rw [hidem]

/-- **C2** witness: a concrete sentinel-free record under the data profile —
its canonical text is a parse/serialize fixpoint. -/
theorem c2_amended_witness :
    (yload (formatYaml .data
        [("name", Field.str "Ariel"), ("code", Field.str "TFC-001")])).map
      (formatYaml .data)
      = some (formatYaml .data
        [("name", Field.str "Ariel"), ("code", Field.str "TFC-001")]) :=
  c2_amended .data [("name", Field.str "Ariel"), ("code", Field.str "TFC-001")]
    (by decide) (Or.inr (by decide))

end LorcanaDB
